import Mathlib

/-!
# rchan: a bounded FIFO channel on a shared key-value store

Embedding of `rchan.go`.  The Go methods `Push`, `Pop`, `Len`, `Del`, `lock`
and `unlock` are translated call by call.  The store they talk to
(`redis.Cmdable`) is an explicit `World`: the key space, the outcome the
network gives each upcoming call, and a log of the store calls and sleeps the
caller has performed.

What is assumed of the store and the client library, which are not part of the
repository:

* the commands `SET .. NX`, `DEL`, `LLEN`, `LPUSH`, `RPOP` behave as the store
  documents them, one command at a time;
* a call either goes through, or fails before the command is executed, or fails
  after it (the reply is lost); after a broken connection the client may send
  the command again, so that one call can execute it several times; a command
  is never executed after its call has returned;
* `Push` takes a Go `interface{}`: `GoVal` lists the kinds of value that the
  client turns into different argument lists of `LPUSH` (one element, one per
  element of a slice or map, none for nil);
* `MaxLen` and the lengths the store replies are `Int`: the Go `int64`, far from
  its bounds for any list the store can hold.

The loop of `lock` has no exit but success, so it takes the number of attempts
to run as `fuel`; an operation is `none` when its `lock` is still spinning after
that many attempts.

For callers that run at the same time the second part of the file cuts `Push`
at its store calls and interleaves the pieces; there the lock key can also
expire, as the 60 s passed to `SetNX` make it do.
-/

namespace Rchan

/-! ## The store -/

/-- Go `error` values that the channel operations can hand to their caller. -/
inductive Err
  /-- `errors.New("channel is full")`, made by `Push`. -/
  | channelFull
  /-- `redis.Nil`: the reply of `RPOP` when there is no element. -/
  | redisNil
  /-- The store's `WRONGTYPE` reply: the key holds a value of another kind. -/
  | wrongType
  /-- The call did not complete: connection error or context deadline exceeded. -/
  | network
  /-- The store's reply to a command without its arguments, such as `LPUSH key`
  with no element. -/
  | wrongArgs
  deriving DecidableEq

/-- A value stored under a key: a plain string or a list (head = left end). -/
inductive RVal
  | str (s : String)
  | list (xs : List String)
  deriving DecidableEq

/-- The key space of the store. -/
abbrev KV := String → Option RVal

/-- The key space with `key` bound to `v` (`none` removes the key). -/
def KV.set (kv : KV) (key : String) (v : Option RVal) : KV :=
  fun k => if k = key then v else kv k

/-- How the store holds a list: a key never holds an empty list, the key is
removed instead. -/
def listVal : List String → Option RVal
  | [] => none
  | x :: xs => some (RVal.list (x :: xs))

/-- The number of elements of the list stored under `key` (0 when there is none). -/
def chanLen (kv : KV) (key : String) : Nat :=
  match kv key with
  | some (RVal.list xs) => xs.length
  | _ => 0

/-- What the network and the client make of one call.  In every case the call
is over when it returns: the command has been executed, once or more, or never
will be.  The client built by `WithRedisConfig` sends a command again up to its
default number of retries; `n` is not bounded here. -/
inductive Net
  /-- The command is executed and its reply reaches the caller. -/
  | ok
  /-- The command never reaches the store; the caller gets an error. -/
  | refused
  /-- The command is executed but the reply is not received in time; the
  caller gets an error. -/
  | replyLost
  /-- The command is executed `n + 1` times, the connection breaking before each
  reply and the client sending the command again; it is then executed once more
  and that reply reaches the caller. -/
  | resent (n : Nat)
  /-- The command is executed `n + 2` times in the same way and no reply reaches
  the caller, who gets an error. -/
  | resentLost (n : Nat)
  deriving DecidableEq

/-- The call ends in an error of the network. -/
def Net.fails : Net → Bool
  | Net.refused => true
  | Net.replyLost => true
  | Net.resentLost _ => true
  | _ => false

/-- The store executes the command at least once. -/
def Net.executed : Net → Bool
  | Net.refused => false
  | _ => true

/-- The store executes the command at most once. -/
def Net.single : Net → Bool
  | Net.resent _ => false
  | Net.resentLost _ => false
  | _ => true

/-- What the caller does that can be observed from outside: store calls and sleeps. -/
inductive Event
  | setnx (key : String)
  | del (key : String)
  | llen (key : String)
  | lpush (key : String) (vals : List String)
  | rpop (key : String)
  | sleep (ms : Nat)
  deriving DecidableEq

/-- The world a channel handle runs in: the key space of the store, for each
key the outcomes of the upcoming calls addressed to it (none listed: the call
goes through), and the log of what the caller has done so far. -/
structure World where
  kv : KV
  net : String → List Net
  log : List Event

/-- The world once a call on `key` is over: the key space is `kv`, the outcome
of the call is used up and the call is logged. -/
def World.after (w : World) (e : Event) (key : String) (kv : KV) : World :=
  { kv := kv,
    net := fun k => if k = key then (w.net key).tail else w.net k,
    log := w.log ++ [e] }

/-- The key space after the store has executed the command `srv` `n` times. -/
def redo {α : Type} (srv : KV → (α × Option Err) × KV) : Nat → KV → KV
  | 0, kv => kv
  | n + 1, kv => redo srv n (srv kv).2

/-- One call of the client for a command on `key`: `srv` is the command as the
store executes it, `zero` the value a Go command object holds when the call
failed. -/
def World.call {α : Type} (w : World) (e : Event) (key : String) (zero : α)
    (srv : KV → (α × Option Err) × KV) : (α × Option Err) × World :=
  match (w.net key).headD Net.ok with
  | Net.ok => ((srv w.kv).1, w.after e key (srv w.kv).2)
  | Net.refused => ((zero, some Err.network), w.after e key w.kv)
  | Net.replyLost => ((zero, some Err.network), w.after e key (srv w.kv).2)
  | Net.resent n =>
    ((srv (redo srv (n + 1) w.kv)).1, w.after e key (srv (redo srv (n + 1) w.kv)).2)
  | Net.resentLost n => ((zero, some Err.network), w.after e key (redo srv (n + 2) w.kv))

/-- `time.Sleep`: only logged. -/
def World.sleep (w : World) (ms : Nat) : World :=
  { kv := w.kv, net := w.net, log := w.log ++ [Event.sleep ms] }

/-- `SET key value EX 60 NX` as the store executes it: binds the key only when
it is absent. -/
def srvSetNX (key value : String) (kv : KV) : (Bool × Option Err) × KV :=
  match kv key with
  | none => ((true, none), kv.set key (some (RVal.str value)))
  | some _ => ((false, none), kv)

/-- `DEL key` as the store executes it: the number of keys removed. -/
def srvDel (key : String) (kv : KV) : (Int × Option Err) × KV :=
  match kv key with
  | none => ((0, none), kv)
  | some _ => ((1, none), kv.set key none)

/-- `LLEN key` as the store executes it. -/
def srvLLen (key : String) (kv : KV) : (Int × Option Err) × KV :=
  match kv key with
  | none => ((0, none), kv)
  | some (RVal.list xs) => (((xs.length : Int), none), kv)
  | some (RVal.str _) => ((0, some Err.wrongType), kv)

/-- `LPUSH key v1 .. vk` as the store executes it: inserts the elements one
after the other at the head, so that the last one ends up first, creates the
list when the key is absent, replies with the new length; without an element
the command is refused. -/
def srvLPush (key : String) (vals : List String) (kv : KV) : (Int × Option Err) × KV :=
  match vals with
  | [] => ((0, some Err.wrongArgs), kv)
  | v :: vs =>
    match kv key with
    | none =>
      ((((v :: vs).length : Int), none), kv.set key (some (RVal.list (v :: vs).reverse)))
    | some (RVal.list xs) =>
      ((((xs.length : Int) + ((v :: vs).length : Int)), none),
        kv.set key (some (RVal.list ((v :: vs).reverse ++ xs))))
    | some (RVal.str _) => ((0, some Err.wrongType), kv)

/-- `RPOP key` as the store executes it: removes and returns the tail element,
removes the key with its last element, replies nil when there is no element. -/
def srvRPop (key : String) (kv : KV) : (String × Option Err) × KV :=
  match kv key with
  | none => (("", some Err.redisNil), kv)
  | some (RVal.list xs) =>
    match xs.getLast? with
    | none => (("", some Err.redisNil), kv.set key none)
    | some x => ((x, none), kv.set key (listVal xs.dropLast))
  | some (RVal.str _) => (("", some Err.wrongType), kv)

/-- Client call `rdb.SetNX(ctx, key, value, 60s).Result()`. -/
def SetNX (key value : String) (w : World) : (Bool × Option Err) × World :=
  w.call (Event.setnx key) key false (srvSetNX key value)

/-- Client call `rdb.Del(ctx, key).Result()`. -/
def RDel (key : String) (w : World) : (Int × Option Err) × World :=
  w.call (Event.del key) key 0 (srvDel key)

/-- Client call `rdb.LLen(ctx, key).Result()`. -/
def LLen (key : String) (w : World) : (Int × Option Err) × World :=
  w.call (Event.llen key) key 0 (srvLLen key)

/-- A value handed to `Push` (a Go `interface{}`), by the ways in which the
client turns one value into arguments of a command: one argument, one argument
for each element, or none.  A float, a boolean or a time is one argument like an
integer, a struct with tagged fields is written like a map; they are not listed
apart. -/
inductive GoVal
  /-- A `string` or `[]byte`: one argument, the bytes themselves. -/
  | str (s : String)
  /-- An integer such as the `int64` of `time.Now().Unix()`: one argument, its
  decimal digits. -/
  | int (n : Int)
  /-- A slice such as `[]string`: one argument for each element. -/
  | strs (xs : List String)
  /-- A map such as `map[string]string`, in the order in which the runtime
  iterates over it: each key followed by its value. -/
  | pairs (kvs : List (String × String))
  /-- The nil value: no argument. -/
  | nil
  deriving DecidableEq

/-- The arguments that the client appends to `LPUSH key` for one value. -/
def GoVal.wire : GoVal → List String
  | GoVal.str s => [s]
  | GoVal.int n => [toString n]
  | GoVal.strs xs => xs
  | GoVal.pairs kvs => kvs.flatMap (fun p => [p.1, p.2])
  | GoVal.nil => []

/-- Client call `rdb.LPush(ctx, key, val).Result()` with the single value `val`. -/
def LPush (key : String) (val : GoVal) (w : World) : (Int × Option Err) × World :=
  w.call (Event.lpush key val.wire) key 0 (srvLPush key val.wire)

/-- Client call `rdb.RPop(ctx, key).Result()`. -/
def RPop (key : String) (w : World) : (String × Option Err) × World :=
  w.call (Event.rpop key) key "" (srvRPop key)

/-! ## The channel handle (`rchan.go`) -/

/-- The lock key of a handle built without `WithChannelLokerName`. -/
def defaultChannelLockerName : String := "system:redis-channel:lock"

/-- The list key of a handle built without `WithChannelName`. -/
def defaultChannelName : String := "system:redis-channel:list"

/-- The `rchan` struct; the `rdb` field is the `World` the operations thread
through, `timeout` (nanoseconds) bounds the calls on the channel key, which the
network outcome of the call stands for. -/
structure rchan where
  ChannelName : String
  ChannelLockerName : String
  MaxLen : Int
  timeout : Nat

/-- `rchan.lock`: conditional set of the lock key, retried after a 100ms sleep
until it succeeds.  `fuel` bounds the number of attempts that are run; `none`
means that the loop is still spinning after that many attempts. -/
def rchan.lock (rc : rchan) : Nat → World → Option World
  | 0, _ => none
  | fuel + 1, w =>
    match SetNX rc.ChannelLockerName "1" w with
    | ((success, _), w1) =>
      if success then some w1 else rchan.lock rc fuel (w1.sleep 100)

/-- `rchan.unlock`: deletes the lock key, the reply is dropped. -/
def rchan.unlock (rc : rchan) (w : World) : World :=
  (RDel rc.ChannelLockerName w).2

/-- `rchan.Push`. -/
def rchan.Push (rc : rchan) (val : GoVal) (fuel : Nat) (w : World) :
    Option ((Int × Option Err) × World) :=
  match rc.lock fuel w with
  | none => none
  | some w1 =>
    let body : (Int × Option Err) × World :=
      match LLen rc.ChannelName w1 with
      | ((_, some err), w2) => ((0, some err), w2)
      | ((l, none), w2) =>
        if rc.MaxLen > 0 ∧ l ≥ rc.MaxLen then ((0, some Err.channelFull), w2)
        else LPush rc.ChannelName val w2
    some (body.1, rc.unlock body.2)

/-- `rchan.Pop`. -/
def rchan.Pop (rc : rchan) (fuel : Nat) (w : World) :
    Option ((String × Option Err) × World) :=
  match rc.lock fuel w with
  | none => none
  | some w1 =>
    match RPop rc.ChannelName w1 with
    | ((val, err), w2) =>
      let w3 := if val = "" then w2.sleep 100 else w2
      some ((val, err), rc.unlock w3)

/-- `rchan.Len`: no lock is taken. -/
def rchan.Len (rc : rchan) (w : World) : (Int × Option Err) × World :=
  LLen rc.ChannelName w

/-- `rchan.Del`. -/
def rchan.Del (rc : rchan) (fuel : Nat) (w : World) :
    Option ((Int × Option Err) × World) :=
  match rc.lock fuel w with
  | none => none
  | some w1 =>
    match RDel rc.ChannelName w1 with
    | (r, w2) => some (r, rc.unlock w2)

/-! ## Sequences of operations -/

/-- One call on the channel handle. -/
inductive Op
  | push (val : GoVal)
  | pop
  | del
  deriving DecidableEq

/-- The world after one call on the handle (`none`: the call has not returned
within `fuel` attempts at the lock). -/
def rchan.exec (rc : rchan) (fuel : Nat) (op : Op) (w : World) : Option World :=
  match op with
  | Op.push val => (rc.Push val fuel w).map Prod.snd
  | Op.pop => (rc.Pop fuel w).map Prod.snd
  | Op.del => (rc.Del fuel w).map Prod.snd

/-- The world after a sequence of calls made one after the other. -/
def rchan.run (rc : rchan) (fuel : Nat) : List Op → World → Option World
  | [], w => some w
  | op :: ops, w =>
    match rc.exec fuel op w with
    | none => none
    | some w1 => rchan.run rc fuel ops w1

/-- The values in `vals` pushed one after the other: the replies in order and
the world afterwards. -/
def rchan.pushAll (rc : rchan) (fuel : Nat) :
    List GoVal → World → Option (List (Int × Option Err) × World)
  | [], w => some ([], w)
  | v :: vs, w =>
    match rc.Push v fuel w with
    | none => none
    | some (r, w1) =>
      match rchan.pushAll rc fuel vs w1 with
      | none => none
      | some (rs, w2) => some (r :: rs, w2)

/-- `n` calls of `Pop` one after the other: the replies in order and the world
afterwards. -/
def rchan.popN (rc : rchan) (fuel : Nat) :
    Nat → World → Option (List (String × Option Err) × World)
  | 0, w => some ([], w)
  | n + 1, w =>
    match rc.Pop fuel w with
    | none => none
    | some (r, w1) =>
      match rchan.popN rc fuel n w1 with
      | none => none
      | some (rs, w2) => some (r :: rs, w2)

/-- Every upcoming call on `key` goes through. -/
def World.reliable (w : World) (key : String) : Prop :=
  ∀ o ∈ w.net key, o = Net.ok

/-- The store executes every upcoming call on `key` at most once: the client
sends none of them again. -/
def World.unrepeated (w : World) (key : String) : Prop :=
  ∀ o ∈ w.net key, o.single = true

/-! ## The operations when nothing disturbs them -/

/-- The conditions of an undisturbed call: the two keys differ, the lock key is
absent, and the upcoming calls on both keys go through. -/
structure Quiet (rc : rchan) (w : World) : Prop where
  keys : rc.ChannelName ≠ rc.ChannelLockerName
  free : w.kv rc.ChannelLockerName = none
  relL : w.reliable rc.ChannelLockerName
  relC : w.reliable rc.ChannelName

/-- The replies of `n` accepted pushes onto a list of `base` elements: the new
lengths `base + 1`, ..., `base + n`, each with a nil error. -/
def pushReplies (base : Nat) : Nat → List (Int × Option Err)
  | 0 => []
  | n + 1 => (((base : Int) + 1), none) :: pushReplies (base + 1) n

/-! ## Several callers pushing at once -/

/-- Where a caller stands inside `Push`: not in a call, in the loop of `lock`,
lock taken and about to ask for the length, length checked and about to insert,
or body finished with reply `r` and the deferred `unlock` still to run. -/
inductive Pc
  | idle
  | lock (val : GoVal)
  | llen (val : GoVal)
  | lpush (val : GoVal)
  | unlock (r : Int × Option Err)
  deriving DecidableEq

/-- The caller is between the return of `lock` and the end of `unlock`. -/
def Pc.holds : Pc → Bool
  | Pc.llen _ => true
  | Pc.lpush _ => true
  | Pc.unlock _ => true
  | _ => false

/-- The store shared by all callers, where each caller stands, and the number
of `Push` calls that have returned a nil error so far. -/
structure Conc where
  kv : KV
  pc : Nat → Pc
  accepted : Nat

/-- What happens next: caller `t` invokes `Push val`; caller `t` makes its next
store call and the network treats it as `o`; or the store drops the lock key
because the 60 s expiry set by `lock` has elapsed (time is not measured, the
schedule says when). -/
inductive Ev
  | call (t : Nat) (val : GoVal)
  | step (t : Nat) (o : Net)
  | expire
  deriving DecidableEq

/-- The world of a single store call whose outcome is `o`. -/
def World.once (kv : KV) (o : Net) : World :=
  { kv := kv, net := fun _ => [o], log := [] }

/-- The callers with caller `t` now at `p`. -/
def Conc.goto (s : Conc) (t : Nat) (p : Pc) : Nat → Pc :=
  fun k => if k = t then p else s.pc k

/-- One event of the schedule.  The store executes one command at a time, so a
step of a caller is one store call of `Push` together with the local code up to
the next call. -/
def rchan.next (rc : rchan) (s : Conc) : Ev → Conc
  | Ev.call t val =>
    match s.pc t with
    | Pc.idle => { kv := s.kv, pc := s.goto t (Pc.lock val), accepted := s.accepted }
    | _ => s
  | Ev.step t o =>
    match s.pc t with
    | Pc.idle => s
    | Pc.lock val =>
      match SetNX rc.ChannelLockerName "1" (World.once s.kv o) with
      | ((success, _), w1) =>
        if success then { kv := w1.kv, pc := s.goto t (Pc.llen val), accepted := s.accepted }
        else { kv := w1.kv, pc := s.pc, accepted := s.accepted }
    | Pc.llen val =>
      match LLen rc.ChannelName (World.once s.kv o) with
      | ((_, some err), w2) =>
        { kv := w2.kv, pc := s.goto t (Pc.unlock (0, some err)), accepted := s.accepted }
      | ((l, none), w2) =>
        if rc.MaxLen > 0 ∧ l ≥ rc.MaxLen then
          { kv := w2.kv, pc := s.goto t (Pc.unlock (0, some Err.channelFull)),
            accepted := s.accepted }
        else { kv := w2.kv, pc := s.goto t (Pc.lpush val), accepted := s.accepted }
    | Pc.lpush val =>
      match LPush rc.ChannelName val (World.once s.kv o) with
      | (r, w3) => { kv := w3.kv, pc := s.goto t (Pc.unlock r), accepted := s.accepted }
    | Pc.unlock r =>
      { kv := (rc.unlock (World.once s.kv o)).kv, pc := s.goto t Pc.idle,
        accepted := if r.2 = none then s.accepted + 1 else s.accepted }
  | Ev.expire =>
    { kv := s.kv.set rc.ChannelLockerName none, pc := s.pc, accepted := s.accepted }

/-- The state after a schedule. -/
def rchan.sched (rc : rchan) : List Ev → Conc → Conc
  | [], s => s
  | e :: es, s => rchan.sched rc es (rc.next s e)

/-- In this schedule the lock key expires only while no caller holds the lock. -/
def rchan.timely (rc : rchan) : List Ev → Conc → Prop
  | [], _ => True
  | e :: es, s =>
    (e = Ev.expire → ∀ t, (s.pc t).holds = false) ∧ rchan.timely rc es (rc.next s e)

/-- In this schedule the store executes the command of every call at most once:
the client sends none of them again. -/
def singleSteps (evs : List Ev) : Prop :=
  ∀ t o, Ev.step t o ∈ evs → o.single = true

/-- Every value pushed in this schedule is one that the client writes as at
most one list element. -/
def oneElement (evs : List Ev) : Prop :=
  ∀ t val, Ev.call t val ∈ evs → val.wire.length ≤ 1

/-- All callers idle on a store where neither key exists. -/
def Conc.init : Conc :=
  { kv := fun _ => none, pc := fun _ => Pc.idle, accepted := 0 }

/-- What mutual exclusion gives for pushes of one element: at most one caller
holds the lock, the lock key is present while it is held, the list has at most
`MaxLen` elements and strictly fewer while a caller has checked the length and
not yet inserted, the pushes that returned a nil error, together with the one
whose reply is decided and not yet returned, are no more than the elements, and
a value on its way into the list is written as at most one element. -/
structure Safe (rc : rchan) (s : Conc) : Prop where
  mutex : ∀ t1 t2, (s.pc t1).holds = true → (s.pc t2).holds = true → t1 = t2
  held : ∀ t, (s.pc t).holds = true → s.kv rc.ChannelLockerName ≠ none
  cap : (chanLen s.kv rc.ChannelName : Int) ≤ rc.MaxLen
  room : ∀ t val, s.pc t = Pc.lpush val → (chanLen s.kv rc.ChannelName : Int) < rc.MaxLen
  count : s.accepted ≤ chanLen s.kv rc.ChannelName
  pending : ∀ t n, s.pc t = Pc.unlock (n, none) →
    s.accepted + 1 ≤ chanLen s.kv rc.ChannelName
  small : ∀ t val, s.pc t = Pc.lock val ∨ s.pc t = Pc.llen val ∨ s.pc t = Pc.lpush val →
    val.wire.length ≤ 1

/-- The handle `New(WithMaxLen(1), WithTimeout(2 * time.Minute), ...)`: the
default keys, and a timeout for the calls on the list key that is longer than
the 60 s after which the lock key expires. -/
def overlapChan : rchan :=
  { ChannelName := defaultChannelName, ChannelLockerName := defaultChannelLockerName,
    MaxLen := 1, timeout := 120000000000 }

/-- Callers 0 and 1 both call `Push`; caller 0 takes the lock and reads length
0; the lock key expires; caller 1 takes the lock and reads length 0 as well. -/
def overlapStart : List Ev :=
  [Ev.call 0 (GoVal.str "a"), Ev.call 1 (GoVal.str "b"), Ev.step 0 Net.ok, Ev.step 0 Net.ok,
    Ev.expire, Ev.step 1 Net.ok, Ev.step 1 Net.ok]

/-- Both callers then insert and release. -/
def overlapEnd : List Ev :=
  [Ev.step 1 Net.ok, Ev.step 1 Net.ok, Ev.step 0 Net.ok, Ev.step 0 Net.ok]

/-- A single caller pushes the slice `[]string{"a", "b"}`, every call going
through. -/
def sliceSched : List Ev :=
  [Ev.call 0 (GoVal.strs ["a", "b"]), Ev.step 0 Net.ok, Ev.step 0 Net.ok, Ev.step 0 Net.ok,
    Ev.step 0 Net.ok]

/-- A single caller pushes "a"; the connection breaks after the store has
executed its `LPUSH`, and the client sends the command again. -/
def resendSched : List Ev :=
  [Ev.call 0 (GoVal.str "a"), Ev.step 0 Net.ok, Ev.step 0 Net.ok, Ev.step 0 (Net.resent 0),
    Ev.step 0 Net.ok]

/-- An orderly schedule: the lock key expires while nobody holds the lock,
caller 0 pushes "a", caller 1 spins on the lock meanwhile, one of its attempts
getting no reply, then takes the lock and finds the channel full. -/
def orderlySched : List Ev :=
  [Ev.expire, Ev.call 0 (GoVal.str "a"), Ev.call 1 (GoVal.int 7), Ev.step 0 Net.ok,
    Ev.step 1 Net.ok, Ev.step 0 Net.ok, Ev.step 1 Net.replyLost, Ev.step 0 Net.ok,
    Ev.step 0 Net.ok, Ev.step 1 Net.ok, Ev.step 1 Net.ok, Ev.step 1 Net.ok]

/-! ## Concrete channels and worlds -/

/-- The handle `New(WithMaxLen(2), ...)` of `TestXxx` in `rchan_test.go`: the
default keys and the default timeout of 3 s. -/
def demoChan : rchan :=
  { ChannelName := defaultChannelName, ChannelLockerName := defaultChannelLockerName,
    MaxLen := 2, timeout := 3000000000 }

/-- The same handle without a maximum length. -/
def openChan : rchan :=
  { ChannelName := defaultChannelName, ChannelLockerName := defaultChannelLockerName,
    MaxLen := 0, timeout := 3000000000 }

/-- A store where the default list key holds the list `xs` and no other key
exists, a network that lets every call through, and an empty log. -/
def demoWorld (xs : List String) : World :=
  { kv := fun k => if k = defaultChannelName then listVal xs else none,
    net := fun _ => [], log := [] }

/-- The world `demoWorld xs` except that the next call on the list key gets no
reply. -/
def lossyWorld (xs : List String) : World :=
  { kv := fun k => if k = defaultChannelName then listVal xs else none,
    net := fun k => if k = defaultChannelName then [Net.replyLost] else [], log := [] }

/-- The world `demoWorld []` except that the store executes the fourth call on
the list key twice: the connection breaks before the first reply and the client
sends the command again. -/
def resendWorld : World :=
  { kv := fun _ => none,
    net := fun k =>
      if k = defaultChannelName then [Net.ok, Net.ok, Net.ok, Net.resent 0] else [],
    log := [] }

/-- The world `demoWorld xs` except that the second call on the lock key, the
`DEL` of `unlock`, never reaches the store. -/
def stuckWorld (xs : List String) : World :=
  { kv := fun k => if k = defaultChannelName then listVal xs else none,
    net := fun k => if k = defaultChannelLockerName then [Net.ok, Net.refused] else [],
    log := [] }

/-- The world `demoWorld []` with the default lock key held. -/
def heldWorld : World :=
  { kv := fun k => if k = defaultChannelLockerName then some (RVal.str "1") else none,
    net := fun _ => [], log := [] }


/-! ## Basic facts about the store -/

@[simp] theorem KV.set_same (kv : KV) (key : String) (v : Option RVal) :
    kv.set key v key = v := by
  simp [KV.set]

@[simp] theorem KV.set_other (kv : KV) (key k : String) (v : Option RVal) (h : k ≠ key) :
    kv.set key v k = kv k := by
  simp [KV.set, h]

theorem KV.set_lock_cycle (kv : KV) (L C : String) (a b : Option RVal)
    (hL : kv L = none) (hne : C ≠ L) :
    ((kv.set L a).set C b).set L none = kv.set C b := by
  funext k
  by_cases h1 : k = L
  · subst h1
    simp [KV.set, hL, Ne.symm hne]
  · simp [KV.set, h1]

theorem KV.set_lock_release (kv : KV) (L : String) (a : Option RVal) (hL : kv L = none) :
    (kv.set L a).set L none = kv := by
  funext k
  by_cases h1 : k = L
  · subst h1
    simp [KV.set, hL]
  · simp [KV.set, h1]

theorem reliable_head (w : World) (key : String) (h : w.reliable key) :
    (w.net key).headD Net.ok = Net.ok := by
  unfold World.reliable at h
  cases hq : w.net key with
  | nil => rfl
  | cons a t =>
    rw [hq] at h
    simpa using h a (by simp)

theorem call_ok {α : Type} (w : World) (e : Event) (key : String) (zero : α)
    (srv : KV → (α × Option Err) × KV) (h : (w.net key).headD Net.ok = Net.ok) :
    w.call e key zero srv = ((srv w.kv).1, w.after e key (srv w.kv).2) := by
  unfold World.call
  rw [h]

theorem redo_inv {α : Type} (srv : KV → (α × Option Err) × KV) (P : KV → Prop)
    (hP : ∀ kv, P kv → P (srv kv).2) (n : Nat) : ∀ kv, P kv → P (redo srv n kv) := by
  induction n with
  | zero => intro kv h; exact h
  | succ k ih => intro kv h; exact ih _ (hP kv h)

/-- Whatever the network does, a call leaves the world that follows some number
of executions of its command, and hands back either the reply of the last of
them or the error of the network. -/
theorem call_cases {α : Type} (w : World) (e : Event) (key : String) (zero : α)
    (srv : KV → (α × Option Err) × KV) :
    ∃ m, w.call e key zero srv =
        ((srv (redo srv m w.kv)).1, w.after e key (srv (redo srv m w.kv)).2) ∨
      w.call e key zero srv = ((zero, some Err.network), w.after e key (redo srv m w.kv)) := by
  unfold World.call
  cases (w.net key).headD Net.ok with
  | ok => exact ⟨0, Or.inl rfl⟩
  | refused => exact ⟨0, Or.inr rfl⟩
  | replyLost => exact ⟨1, Or.inr rfl⟩
  | resent n => exact ⟨n + 1, Or.inl rfl⟩
  | resentLost n => exact ⟨n + 2, Or.inr rfl⟩

theorem call_single {α : Type} (w : World) (e : Event) (key : String) (zero : α)
    (srv : KV → (α × Option Err) × KV) (h : ((w.net key).headD Net.ok).single = true) :
    w.call e key zero srv = ((srv w.kv).1, w.after e key (srv w.kv).2) ∨
    w.call e key zero srv = ((zero, some Err.network), w.after e key w.kv) ∨
    w.call e key zero srv = ((zero, some Err.network), w.after e key (srv w.kv).2) := by
  unfold World.call
  cases hq : (w.net key).headD Net.ok with
  | ok => exact Or.inl rfl
  | refused => exact Or.inr (Or.inl rfl)
  | replyLost => exact Or.inr (Or.inr rfl)
  | resent n => rw [hq] at h; simp [Net.single] at h
  | resentLost n => rw [hq] at h; simp [Net.single] at h

theorem call_world {α : Type} (w : World) (e : Event) (key : String) (zero : α)
    (srv : KV → (α × Option Err) × KV) :
    (w.call e key zero srv).2 = w.after e key (w.call e key zero srv).2.kv := by
  obtain ⟨m, h | h⟩ := call_cases w e key zero srv <;>
  · rw [h]
    rfl

/-- A property of the key space that every execution of the command keeps holds
after the call, and a reply that is not the error of the network is the reply
of an execution from a key space with that property. -/
theorem call_spec {α : Type} (w : World) (e : Event) (key : String) (zero : α)
    (srv : KV → (α × Option Err) × KV) (P : KV → Prop)
    (hP : ∀ kv, P kv → P (srv kv).2) (h0 : P w.kv) :
    P (w.call e key zero srv).2.kv ∧
    ((w.call e key zero srv).1 = (zero, some Err.network) ∨
      ∃ kv1, P kv1 ∧ (w.call e key zero srv).1 = (srv kv1).1 ∧
        (w.call e key zero srv).2.kv = (srv kv1).2) := by
  obtain ⟨m, h | h⟩ := call_cases w e key zero srv
  · rw [h]
    have hm := redo_inv srv P hP m w.kv h0
    exact ⟨hP _ hm, Or.inr ⟨_, hm, rfl, rfl⟩⟩
  · rw [h]
    exact ⟨redo_inv srv P hP m w.kv h0, Or.inl rfl⟩

theorem call_kv {α : Type} (w : World) (e : Event) (key : String) (zero : α)
    (srv : KV → (α × Option Err) × KV) (P : KV → Prop)
    (hP : ∀ kv, P kv → P (srv kv).2) (h0 : P w.kv) : P (w.call e key zero srv).2.kv :=
  (call_spec w e key zero srv P hP h0).1

theorem call_result {α : Type} (w : World) (e : Event) (key : String) (zero : α)
    (srv : KV → (α × Option Err) × KV) (Q : α × Option Err → Prop)
    (hz : Q (zero, some Err.network)) (hs : ∀ kv, Q (srv kv).1) :
    Q (w.call e key zero srv).1 := by
  rcases (call_spec w e key zero srv (fun _ => True) (fun _ _ => trivial) trivial).2 with
    h | ⟨kv1, _, h, _⟩
  · rw [h]; exact hz
  · rw [h]; exact hs kv1

theorem after_reliable (w : World) (e : Event) (key : String) (kv : KV) (k : String)
    (h : w.reliable k) : (w.after e key kv).reliable k := by
  unfold World.reliable at *
  intro o ho
  by_cases hk : k = key
  · subst hk
    simp only [World.after, if_true] at ho
    exact h o (List.mem_of_mem_tail ho)
  · simp only [World.after, hk, if_false] at ho
    exact h o ho

theorem sleep_reliable (w : World) (ms : Nat) (k : String) (h : w.reliable k) :
    (w.sleep ms).reliable k := h

@[simp] theorem after_kv (w : World) (e : Event) (key : String) (kv : KV) :
    (w.after e key kv).kv = kv := rfl

@[simp] theorem after_log (w : World) (e : Event) (key : String) (kv : KV) :
    (w.after e key kv).log = w.log ++ [e] := rfl

@[simp] theorem sleep_kv (w : World) (ms : Nat) : (w.sleep ms).kv = w.kv := rfl

@[simp] theorem sleep_log (w : World) (ms : Nat) :
    (w.sleep ms).log = w.log ++ [Event.sleep ms] := rfl

theorem call_log {α : Type} (w : World) (e : Event) (key : String) (zero : α)
    (srv : KV → (α × Option Err) × KV) :
    (w.call e key zero srv).2.log = w.log ++ [e] := by
  rw [call_world]
  rfl

theorem call_reliable {α : Type} (w : World) (e : Event) (key : String) (zero : α)
    (srv : KV → (α × Option Err) × KV) (k : String) (h : w.reliable k) :
    (w.call e key zero srv).2.reliable k := by
  rw [call_world]
  exact after_reliable _ _ _ _ _ h

theorem call_net_other {α : Type} (w : World) (e : Event) (key : String) (zero : α)
    (srv : KV → (α × Option Err) × KV) (k : String) (hk : k ≠ key) :
    (w.call e key zero srv).2.net k = w.net k := by
  rw [call_world]
  simp [World.after, hk]

theorem call_net_same {α : Type} (w : World) (e : Event) (key : String) (zero : α)
    (srv : KV → (α × Option Err) × KV) :
    (w.call e key zero srv).2.net key = (w.net key).tail := by
  rw [call_world]
  simp [World.after]

theorem call_failed {α : Type} (w : World) (e : Event) (key : String) (zero : α)
    (srv : KV → (α × Option Err) × KV) (h : ((w.net key).headD Net.ok).fails = true) :
    (w.call e key zero srv).1 = (zero, some Err.network) := by
  unfold World.call
  cases hq : (w.net key).headD Net.ok with
  | ok => rw [hq] at h; simp [Net.fails] at h
  | refused => rfl
  | replyLost => rfl
  | resent n => rw [hq] at h; simp [Net.fails] at h
  | resentLost n => rfl

/-! ## The lock -/

theorem lock_free (rc : rchan) (fuel : Nat) (w : World)
    (hL : w.kv rc.ChannelLockerName = none)
    (hn : (w.net rc.ChannelLockerName).headD Net.ok = Net.ok) :
    rc.lock (fuel + 1) w =
      some (w.after (Event.setnx rc.ChannelLockerName) rc.ChannelLockerName
        (w.kv.set rc.ChannelLockerName (some (RVal.str "1")))) := by
  simp [rchan.lock, SetNX, call_ok _ _ _ _ _ hn, srvSetNX, hL]

theorem srvSetNX_held (key value : String) (kv : KV) (h : kv key ≠ none) :
    srvSetNX key value kv = ((false, none), kv) := by
  unfold srvSetNX
  cases hq : kv key with
  | none => exact absurd hq h
  | some v => rfl

theorem srvSetNX_sets (key value : String) (kv : KV) : (srvSetNX key value kv).2 key ≠ none := by
  unfold srvSetNX
  cases hq : kv key with
  | none => simp
  | some v => simp [hq]

theorem SetNX_keeps (key value : String) (w : World) (h : w.kv key ≠ none) :
    (SetNX key value w).2.kv key ≠ none :=
  call_kv w _ key false (srvSetNX key value) (fun kv => kv key ≠ none)
    (fun kv _ => srvSetNX_sets key value kv) h

theorem SetNX_held (key value : String) (w : World) (h : w.kv key ≠ none) :
    (SetNX key value w).1.1 = false := by
  unfold SetNX
  rcases (call_spec w (Event.setnx key) key false (srvSetNX key value)
    (fun kv => kv key ≠ none) (fun kv _ => srvSetNX_sets key value kv) h).2 with
    h1 | ⟨kv1, hk1, h1, _⟩
  · rw [h1]
  · rw [h1, srvSetNX_held key value kv1 hk1]

/-- A conditional set that reports success found the key absent, was executed
once, and bound the key. -/
theorem SetNX_success (key value : String) (w : World) (h : (SetNX key value w).1.1 = true) :
    w.kv key = none ∧ (SetNX key value w).2.kv = w.kv.set key (some (RVal.str value)) := by
  unfold SetNX at h ⊢
  rcases (call_spec w (Event.setnx key) key false (srvSetNX key value)
    (fun kv => kv = w.kv ∨ kv key ≠ none)
    (fun kv _ => Or.inr (srvSetNX_sets key value kv)) (Or.inl rfl)).2 with
    h1 | ⟨kv1, hk1, h1, h2⟩
  · rw [h1] at h; simp at h
  · rw [h1] at h
    rcases hk1 with hk1 | hk1
    · subst hk1
      cases hq : w.kv key with
      | none =>
        refine ⟨rfl, ?_⟩
        rw [h2]
        simp [srvSetNX, hq]
      | some v =>
        rw [srvSetNX_held key value w.kv (by simp [hq])] at h
        simp at h
    · rw [srvSetNX_held key value kv1 hk1] at h
      simp at h

/-- A conditional set that does not report success leaves the key space as it
was or leaves the key present. -/
theorem SetNX_failed (key value : String) (w : World) :
    (SetNX key value w).2.kv = w.kv ∨ (SetNX key value w).2.kv key ≠ none :=
  call_kv w _ key false (srvSetNX key value) (fun kv => kv = w.kv ∨ kv key ≠ none)
    (fun kv _ => Or.inr (srvSetNX_sets key value kv)) (Or.inl rfl)

theorem SetNX_log (key value : String) (w : World) :
    (SetNX key value w).2.log = w.log ++ [Event.setnx key] :=
  call_log _ _ _ _ _

theorem lock_held (rc : rchan) (fuel : Nat) (w : World)
    (hL : w.kv rc.ChannelLockerName ≠ none) : rc.lock fuel w = none := by
  induction fuel generalizing w with
  | zero => rfl
  | succ n ih =>
    have h1 := SetNX_held rc.ChannelLockerName "1" w hL
    have h2 := SetNX_keeps rc.ChannelLockerName "1" w hL
    unfold rchan.lock
    generalize SetNX rc.ChannelLockerName "1" w = res at h1 h2
    obtain ⟨⟨success, err⟩, w1⟩ := res
    simp only at h1 h2
    subst h1
    simp only [Bool.false_eq_true, if_false]
    exact ih _ (by simpa using h2)

theorem lock_some (rc : rchan) (fuel : Nat) (w w1 : World) (h : rc.lock fuel w = some w1) :
    w.kv rc.ChannelLockerName = none ∧
    w1.kv = w.kv.set rc.ChannelLockerName (some (RVal.str "1")) ∧
    ∃ evs, w1.log = w.log ++ evs ++ [Event.setnx rc.ChannelLockerName] := by
  induction fuel generalizing w with
  | zero => simp [rchan.lock] at h
  | succ n ih =>
    have h1 := SetNX_success rc.ChannelLockerName "1" w
    have h2 := SetNX_failed rc.ChannelLockerName "1" w
    have h3 := SetNX_log rc.ChannelLockerName "1" w
    unfold rchan.lock at h
    generalize SetNX rc.ChannelLockerName "1" w = res at h h1 h2 h3
    obtain ⟨⟨success, err⟩, w2⟩ := res
    simp only at h h1 h2 h3
    cases success with
    | true =>
      simp only [if_true, Option.some.injEq] at h
      subst h
      obtain ⟨ha, hb⟩ := h1 rfl
      exact ⟨ha, hb, [], by simpa using h3⟩
    | false =>
      simp only [Bool.false_eq_true, if_false] at h
      rcases h2 with h2 | h2
      · obtain ⟨hk, hkv, evs, hl⟩ := ih _ h
        rw [sleep_kv, h2] at hk hkv
        refine ⟨hk, hkv, Event.setnx rc.ChannelLockerName :: Event.sleep 100 :: evs, ?_⟩
        rw [hl, sleep_log, h3]
        simp
      · rw [lock_held rc n _ (by simpa using h2)] at h
        cases h

theorem srvDel_other (key : String) (kv : KV) (k : String) (hk : k ≠ key) :
    (srvDel key kv).2 k = kv k := by
  unfold srvDel
  split
  · rfl
  · simp [hk]

theorem srvDel_gone (key : String) (kv : KV) : (srvDel key kv).2 key = none := by
  unfold srvDel
  cases hq : kv key with
  | none => simp [hq]
  | some v => simp

theorem unlock_kv_other (rc : rchan) (w : World) (k : String)
    (hk : k ≠ rc.ChannelLockerName) : (rc.unlock w).kv k = w.kv k :=
  call_kv w _ rc.ChannelLockerName 0 (srvDel rc.ChannelLockerName)
    (fun kv => kv k = w.kv k)
    (fun kv h => (srvDel_other _ kv k hk).trans h) rfl

theorem unlock_ok (rc : rchan) (w : World)
    (hn : (w.net rc.ChannelLockerName).headD Net.ok = Net.ok) :
    rc.unlock w = w.after (Event.del rc.ChannelLockerName) rc.ChannelLockerName
      (w.kv.set rc.ChannelLockerName none) := by
  unfold rchan.unlock RDel
  rw [call_ok _ _ _ _ _ hn]
  simp only
  congr 1
  unfold srvDel
  split
  · rename_i hq
    funext k
    by_cases hk : k = rc.ChannelLockerName
    · subst hk; simp [hq]
    · simp [hk]
  · rfl

theorem unlock_log (rc : rchan) (w : World) :
    (rc.unlock w).log = w.log ++ [Event.del rc.ChannelLockerName] :=
  call_log _ _ _ _ _

theorem unlock_reliable (rc : rchan) (w : World) (k : String) (h : w.reliable k) :
    (rc.unlock w).reliable k :=
  call_reliable _ _ _ _ _ _ h

/-- The `DEL` of `unlock` removes the lock key as soon as the store executes it,
whether or not its reply arrives and however often it is sent. -/
theorem unlock_executed (rc : rchan) (w : World)
    (h : ((w.net rc.ChannelLockerName).headD Net.ok).executed = true) :
    (rc.unlock w).kv rc.ChannelLockerName = none := by
  have hr : ∀ n kv, (redo (srvDel rc.ChannelLockerName) (n + 1) kv) rc.ChannelLockerName
      = none := by
    intro n
    induction n with
    | zero => intro kv; exact srvDel_gone _ kv
    | succ k ih => intro kv; exact ih _
  unfold rchan.unlock RDel World.call
  cases hq : (w.net rc.ChannelLockerName).headD Net.ok with
  | ok => exact srvDel_gone _ _
  | refused => rw [hq] at h; simp [Net.executed] at h
  | replyLost => exact srvDel_gone _ _
  | resent n => exact srvDel_gone _ _
  | resentLost n => exact hr (n + 1) w.kv

/-! ## The store commands on a channel key that holds a list -/

theorem KV.set_absent (kv : KV) (key : String) (h : kv key = none) :
    kv.set key none = kv := by
  funext k
  by_cases hk : k = key
  · subst hk; simp [h]
  · simp [hk]

theorem srvLLen_list (key : String) (kv : KV) (xs : List String) (h : kv key = listVal xs) :
    srvLLen key kv = (((xs.length : Int), none), kv) := by
  unfold srvLLen
  cases xs with
  | nil => simp [listVal] at h; simp [h]
  | cons x t => simp [listVal] at h; simp [h]

theorem listVal_ne_nil (xs : List String) (h : xs ≠ []) : listVal xs = some (RVal.list xs) := by
  cases xs with
  | nil => exact absurd rfl h
  | cons x t => rfl

theorem srvLPush_list (key : String) (vals : List String) (kv : KV) (xs : List String)
    (hv : vals ≠ []) (h : kv key = listVal xs) :
    srvLPush key vals kv =
      ((((xs.length : Int) + (vals.length : Int)), none),
        kv.set key (listVal (vals.reverse ++ xs))) := by
  cases vals with
  | nil => exact absurd rfl hv
  | cons v vs =>
    have hne : (v :: vs).reverse ++ xs ≠ [] := by simp
    rw [listVal_ne_nil _ hne]
    unfold srvLPush
    cases xs with
    | nil => simp [listVal] at h; simp [h]
    | cons x t => simp [listVal] at h; simp [h]

theorem srvLPush_none (key : String) (kv : KV) :
    srvLPush key [] kv = ((0, some Err.wrongArgs), kv) := rfl

theorem srvRPop_nil (key : String) (kv : KV) (h : kv key = none) :
    srvRPop key kv = (("", some Err.redisNil), kv) := by
  simp [srvRPop, h]

theorem srvRPop_snoc (key : String) (kv : KV) (xs : List String) (x : String)
    (h : kv key = listVal (xs ++ [x])) :
    srvRPop key kv = ((x, none), kv.set key (listVal xs)) := by
  have h1 : listVal (xs ++ [x]) = some (RVal.list (xs ++ [x])) := by
    cases xs <;> rfl
  rw [h1] at h
  simp [srvRPop, h]

theorem srvDel_list (key : String) (kv : KV) (xs : List String) (h : kv key = listVal xs) :
    srvDel key kv = (((if xs = [] then 0 else 1), none), kv.set key none) := by
  unfold srvDel
  cases xs with
  | nil => simp [listVal] at h; simp [h, KV.set_absent]
  | cons x t => simp [listVal] at h; simp [h]

/-! ## The operations when nothing disturbs them -/

theorem Push_room (rc : rchan) (val : GoVal) (fuel : Nat) (w : World) (xs : List String)
    (hq : Quiet rc w) (hc : w.kv rc.ChannelName = listVal xs)
    (hroom : ¬ (rc.MaxLen > 0 ∧ (xs.length : Int) ≥ rc.MaxLen)) (hv : val.wire ≠ []) :
    ∃ w1, rc.Push val (fuel + 1) w =
        some ((((xs.length : Int) + (val.wire.length : Int)), none), w1) ∧
      Quiet rc w1 ∧ w1.kv = w.kv.set rc.ChannelName (listVal (val.wire.reverse ++ xs)) ∧
      w1.log = w.log ++ [Event.setnx rc.ChannelLockerName, Event.llen rc.ChannelName,
        Event.lpush rc.ChannelName val.wire, Event.del rc.ChannelLockerName] := by
  obtain ⟨hne, hL, hrL, hrC⟩ := hq
  have hlock := lock_free rc fuel w hL (reliable_head w _ hrL)
  generalize hw1 : w.after (Event.setnx rc.ChannelLockerName) rc.ChannelLockerName
        (w.kv.set rc.ChannelLockerName (some (RVal.str "1"))) = w1 at hlock
  have h1C : w1.kv rc.ChannelName = listVal xs := by
    rw [← hw1]; simpa [hne] using hc
  have h1rL : w1.reliable rc.ChannelLockerName := by
    rw [← hw1]; exact after_reliable _ _ _ _ _ hrL
  have h1rC : w1.reliable rc.ChannelName := by
    rw [← hw1]; exact after_reliable _ _ _ _ _ hrC
  have hllen : LLen rc.ChannelName w1 =
      (((xs.length : Int), none), w1.after (Event.llen rc.ChannelName) rc.ChannelName w1.kv) := by
    unfold LLen
    rw [call_ok _ _ _ _ _ (reliable_head _ _ h1rC), srvLLen_list _ _ _ h1C]
  generalize hw2 : w1.after (Event.llen rc.ChannelName) rc.ChannelName w1.kv = w2 at hllen
  have h2C : w2.kv rc.ChannelName = listVal xs := by
    rw [← hw2]; simpa using h1C
  have h2rL : w2.reliable rc.ChannelLockerName := by
    rw [← hw2]; exact after_reliable _ _ _ _ _ h1rL
  have h2rC : w2.reliable rc.ChannelName := by
    rw [← hw2]; exact after_reliable _ _ _ _ _ h1rC
  have hpush : LPush rc.ChannelName val w2 =
      ((((xs.length : Int) + (val.wire.length : Int)), none),
        w2.after (Event.lpush rc.ChannelName val.wire) rc.ChannelName
          (w2.kv.set rc.ChannelName (listVal (val.wire.reverse ++ xs)))) := by
    unfold LPush
    rw [call_ok _ _ _ _ _ (reliable_head _ _ h2rC), srvLPush_list _ _ _ _ hv h2C]
  generalize hw3 : w2.after (Event.lpush rc.ChannelName val.wire) rc.ChannelName
          (w2.kv.set rc.ChannelName (listVal (val.wire.reverse ++ xs))) = w3 at hpush
  have h3rL : w3.reliable rc.ChannelLockerName := by
    rw [← hw3]; exact after_reliable _ _ _ _ _ h2rL
  have h3rC : w3.reliable rc.ChannelName := by
    rw [← hw3]; exact after_reliable _ _ _ _ _ h2rC
  have hun := unlock_ok rc w3 (reliable_head _ _ h3rL)
  refine ⟨rc.unlock w3, ?_, ⟨hne, ?_, unlock_reliable _ _ _ h3rL, unlock_reliable _ _ _ h3rC⟩,
    ?_, ?_⟩
  · simp only [rchan.Push, hlock, hllen, hroom, if_false, hpush]
  · rw [hun]; simp
  · rw [hun, ← hw3, ← hw2, ← hw1]
    simp only [after_kv]
    exact KV.set_lock_cycle _ _ _ _ _ hL hne
  · rw [hun, ← hw3, ← hw2, ← hw1]
    simp

theorem Push_full (rc : rchan) (val : GoVal) (fuel : Nat) (w : World) (xs : List String)
    (hq : Quiet rc w) (hc : w.kv rc.ChannelName = listVal xs)
    (hfull : rc.MaxLen > 0 ∧ (xs.length : Int) ≥ rc.MaxLen) :
    ∃ w1, rc.Push val (fuel + 1) w = some ((0, some Err.channelFull), w1) ∧
      Quiet rc w1 ∧ w1.kv = w.kv ∧
      w1.log = w.log ++ [Event.setnx rc.ChannelLockerName, Event.llen rc.ChannelName,
        Event.del rc.ChannelLockerName] := by
  obtain ⟨hne, hL, hrL, hrC⟩ := hq
  have hlock := lock_free rc fuel w hL (reliable_head w _ hrL)
  generalize hw1 : w.after (Event.setnx rc.ChannelLockerName) rc.ChannelLockerName
        (w.kv.set rc.ChannelLockerName (some (RVal.str "1"))) = w1 at hlock
  have h1C : w1.kv rc.ChannelName = listVal xs := by
    rw [← hw1]; simpa [hne] using hc
  have h1rL : w1.reliable rc.ChannelLockerName := by
    rw [← hw1]; exact after_reliable _ _ _ _ _ hrL
  have h1rC : w1.reliable rc.ChannelName := by
    rw [← hw1]; exact after_reliable _ _ _ _ _ hrC
  have hllen : LLen rc.ChannelName w1 =
      (((xs.length : Int), none), w1.after (Event.llen rc.ChannelName) rc.ChannelName w1.kv) := by
    unfold LLen
    rw [call_ok _ _ _ _ _ (reliable_head _ _ h1rC), srvLLen_list _ _ _ h1C]
  generalize hw2 : w1.after (Event.llen rc.ChannelName) rc.ChannelName w1.kv = w2 at hllen
  have h2rL : w2.reliable rc.ChannelLockerName := by
    rw [← hw2]; exact after_reliable _ _ _ _ _ h1rL
  have h2rC : w2.reliable rc.ChannelName := by
    rw [← hw2]; exact after_reliable _ _ _ _ _ h1rC
  have hun := unlock_ok rc w2 (reliable_head _ _ h2rL)
  refine ⟨rc.unlock w2, ?_, ⟨hne, ?_, unlock_reliable _ _ _ h2rL, unlock_reliable _ _ _ h2rC⟩,
    ?_, ?_⟩
  · simp only [rchan.Push, hlock, hllen, hfull, and_self, if_true]
  · rw [hun]; simp
  · rw [hun, ← hw2, ← hw1]
    simp only [after_kv]
    exact KV.set_lock_release _ _ _ hL
  · rw [hun, ← hw2, ← hw1]
    simp

theorem Pop_empty (rc : rchan) (fuel : Nat) (w : World)
    (hq : Quiet rc w) (hc : w.kv rc.ChannelName = none) :
    ∃ w1, rc.Pop (fuel + 1) w = some (("", some Err.redisNil), w1) ∧
      Quiet rc w1 ∧ w1.kv = w.kv ∧
      w1.log = w.log ++ [Event.setnx rc.ChannelLockerName, Event.rpop rc.ChannelName,
        Event.sleep 100, Event.del rc.ChannelLockerName] := by
  obtain ⟨hne, hL, hrL, hrC⟩ := hq
  have hlock := lock_free rc fuel w hL (reliable_head w _ hrL)
  generalize hw1 : w.after (Event.setnx rc.ChannelLockerName) rc.ChannelLockerName
        (w.kv.set rc.ChannelLockerName (some (RVal.str "1"))) = w1 at hlock
  have h1C : w1.kv rc.ChannelName = none := by
    rw [← hw1]; simpa [hne] using hc
  have h1rL : w1.reliable rc.ChannelLockerName := by
    rw [← hw1]; exact after_reliable _ _ _ _ _ hrL
  have h1rC : w1.reliable rc.ChannelName := by
    rw [← hw1]; exact after_reliable _ _ _ _ _ hrC
  have hpop : RPop rc.ChannelName w1 =
      (("", some Err.redisNil), w1.after (Event.rpop rc.ChannelName) rc.ChannelName w1.kv) := by
    unfold RPop
    rw [call_ok _ _ _ _ _ (reliable_head _ _ h1rC), srvRPop_nil _ _ h1C]
  generalize hw2 : w1.after (Event.rpop rc.ChannelName) rc.ChannelName w1.kv = w2 at hpop
  have h2rL : (w2.sleep 100).reliable rc.ChannelLockerName := by
    rw [← hw2]; exact sleep_reliable _ _ _ (after_reliable _ _ _ _ _ h1rL)
  have h2rC : (w2.sleep 100).reliable rc.ChannelName := by
    rw [← hw2]; exact sleep_reliable _ _ _ (after_reliable _ _ _ _ _ h1rC)
  have hun := unlock_ok rc (w2.sleep 100) (reliable_head _ _ h2rL)
  refine ⟨rc.unlock (w2.sleep 100), ?_,
    ⟨hne, ?_, unlock_reliable _ _ _ h2rL, unlock_reliable _ _ _ h2rC⟩, ?_, ?_⟩
  · simp only [rchan.Pop, hlock, hpop, if_true]
  · rw [hun]; simp
  · rw [hun, ← hw2, ← hw1]
    simp only [after_kv, sleep_kv]
    exact KV.set_lock_release _ _ _ hL
  · rw [hun, ← hw2, ← hw1]
    simp

theorem Pop_snoc (rc : rchan) (fuel : Nat) (w : World) (xs : List String) (x : String)
    (hq : Quiet rc w) (hc : w.kv rc.ChannelName = listVal (xs ++ [x])) :
    ∃ w1, rc.Pop (fuel + 1) w = some ((x, none), w1) ∧
      Quiet rc w1 ∧ w1.kv = w.kv.set rc.ChannelName (listVal xs) ∧
      w1.log = w.log ++ ([Event.setnx rc.ChannelLockerName, Event.rpop rc.ChannelName] ++
        (if x = "" then [Event.sleep 100] else []) ++ [Event.del rc.ChannelLockerName]) := by
  obtain ⟨hne, hL, hrL, hrC⟩ := hq
  have hlock := lock_free rc fuel w hL (reliable_head w _ hrL)
  generalize hw1 : w.after (Event.setnx rc.ChannelLockerName) rc.ChannelLockerName
        (w.kv.set rc.ChannelLockerName (some (RVal.str "1"))) = w1 at hlock
  have h1C : w1.kv rc.ChannelName = listVal (xs ++ [x]) := by
    rw [← hw1]; simpa [hne] using hc
  have h1rL : w1.reliable rc.ChannelLockerName := by
    rw [← hw1]; exact after_reliable _ _ _ _ _ hrL
  have h1rC : w1.reliable rc.ChannelName := by
    rw [← hw1]; exact after_reliable _ _ _ _ _ hrC
  have hpop : RPop rc.ChannelName w1 =
      ((x, none), w1.after (Event.rpop rc.ChannelName) rc.ChannelName
        (w1.kv.set rc.ChannelName (listVal xs))) := by
    unfold RPop
    rw [call_ok _ _ _ _ _ (reliable_head _ _ h1rC), srvRPop_snoc _ _ _ _ h1C]
  generalize hw2 : w1.after (Event.rpop rc.ChannelName) rc.ChannelName
        (w1.kv.set rc.ChannelName (listVal xs)) = w2 at hpop
  have h2rL : w2.reliable rc.ChannelLockerName := by
    rw [← hw2]; exact after_reliable _ _ _ _ _ h1rL
  have h2rC : w2.reliable rc.ChannelName := by
    rw [← hw2]; exact after_reliable _ _ _ _ _ h1rC
  have h3rL : (if x = "" then w2.sleep 100 else w2).reliable rc.ChannelLockerName := by
    split
    · exact sleep_reliable _ _ _ h2rL
    · exact h2rL
  have h3rC : (if x = "" then w2.sleep 100 else w2).reliable rc.ChannelName := by
    split
    · exact sleep_reliable _ _ _ h2rC
    · exact h2rC
  have hun := unlock_ok rc (if x = "" then w2.sleep 100 else w2) (reliable_head _ _ h3rL)
  refine ⟨rc.unlock (if x = "" then w2.sleep 100 else w2), ?_,
    ⟨hne, ?_, unlock_reliable _ _ _ h3rL, unlock_reliable _ _ _ h3rC⟩, ?_, ?_⟩
  · simp only [rchan.Pop, hlock, hpop]
  · rw [hun]; simp
  · rw [hun]
    simp only [after_kv]
    have : (if x = "" then w2.sleep 100 else w2).kv = w2.kv := by split <;> rfl
    rw [this, ← hw2, ← hw1]
    simp only [after_kv]
    exact KV.set_lock_cycle _ _ _ _ _ hL hne
  · rw [hun]
    by_cases hx : x = ""
    · simp only [hx, if_true]
      rw [← hw2, ← hw1]
      simp
    · simp only [hx, if_false]
      rw [← hw2, ← hw1]
      simp

theorem Del_quiet (rc : rchan) (fuel : Nat) (w : World) (xs : List String)
    (hq : Quiet rc w) (hc : w.kv rc.ChannelName = listVal xs) :
    ∃ w1, rc.Del (fuel + 1) w = some (((if xs = [] then 0 else 1), none), w1) ∧
      Quiet rc w1 ∧ w1.kv = w.kv.set rc.ChannelName none ∧
      w1.log = w.log ++ [Event.setnx rc.ChannelLockerName, Event.del rc.ChannelName,
        Event.del rc.ChannelLockerName] := by
  obtain ⟨hne, hL, hrL, hrC⟩ := hq
  have hlock := lock_free rc fuel w hL (reliable_head w _ hrL)
  generalize hw1 : w.after (Event.setnx rc.ChannelLockerName) rc.ChannelLockerName
        (w.kv.set rc.ChannelLockerName (some (RVal.str "1"))) = w1 at hlock
  have h1C : w1.kv rc.ChannelName = listVal xs := by
    rw [← hw1]; simpa [hne] using hc
  have h1rL : w1.reliable rc.ChannelLockerName := by
    rw [← hw1]; exact after_reliable _ _ _ _ _ hrL
  have h1rC : w1.reliable rc.ChannelName := by
    rw [← hw1]; exact after_reliable _ _ _ _ _ hrC
  have hdel : RDel rc.ChannelName w1 =
      (((if xs = [] then 0 else 1), none), w1.after (Event.del rc.ChannelName) rc.ChannelName
        (w1.kv.set rc.ChannelName none)) := by
    unfold RDel
    rw [call_ok _ _ _ _ _ (reliable_head _ _ h1rC), srvDel_list _ _ _ h1C]
  generalize hw2 : w1.after (Event.del rc.ChannelName) rc.ChannelName
        (w1.kv.set rc.ChannelName none) = w2 at hdel
  have h2rL : w2.reliable rc.ChannelLockerName := by
    rw [← hw2]; exact after_reliable _ _ _ _ _ h1rL
  have h2rC : w2.reliable rc.ChannelName := by
    rw [← hw2]; exact after_reliable _ _ _ _ _ h1rC
  have hun := unlock_ok rc w2 (reliable_head _ _ h2rL)
  refine ⟨rc.unlock w2, ?_, ⟨hne, ?_, unlock_reliable _ _ _ h2rL, unlock_reliable _ _ _ h2rC⟩,
    ?_, ?_⟩
  · simp only [rchan.Del, hlock, hdel]
  · rw [hun]; simp
  · rw [hun, ← hw2, ← hw1]
    simp only [after_kv]
    exact KV.set_lock_cycle _ _ _ _ _ hL hne
  · rw [hun, ← hw2, ← hw1]
    simp

theorem Len_quiet (rc : rchan) (w : World) (xs : List String)
    (hrC : w.reliable rc.ChannelName) (hc : w.kv rc.ChannelName = listVal xs) :
    (rc.Len w).1 = ((xs.length : Int), none) ∧ (rc.Len w).2.kv = w.kv := by
  unfold rchan.Len LLen
  rw [call_ok _ _ _ _ _ (reliable_head _ _ hrC), srvLLen_list _ _ _ hc]
  exact ⟨rfl, rfl⟩

theorem Push_none (rc : rchan) (val : GoVal) (fuel : Nat) (w : World) (xs : List String)
    (hq : Quiet rc w) (hc : w.kv rc.ChannelName = listVal xs)
    (hroom : ¬ (rc.MaxLen > 0 ∧ (xs.length : Int) ≥ rc.MaxLen)) (hv : val.wire = []) :
    ∃ w1, rc.Push val (fuel + 1) w = some ((0, some Err.wrongArgs), w1) ∧
      Quiet rc w1 ∧ w1.kv = w.kv := by
  obtain ⟨hne, hL, hrL, hrC⟩ := hq
  have hlock := lock_free rc fuel w hL (reliable_head w _ hrL)
  generalize hw1 : w.after (Event.setnx rc.ChannelLockerName) rc.ChannelLockerName
        (w.kv.set rc.ChannelLockerName (some (RVal.str "1"))) = w1 at hlock
  have h1C : w1.kv rc.ChannelName = listVal xs := by
    rw [← hw1]; simpa [hne] using hc
  have h1rL : w1.reliable rc.ChannelLockerName := by
    rw [← hw1]; exact after_reliable _ _ _ _ _ hrL
  have h1rC : w1.reliable rc.ChannelName := by
    rw [← hw1]; exact after_reliable _ _ _ _ _ hrC
  have hllen : LLen rc.ChannelName w1 =
      (((xs.length : Int), none), w1.after (Event.llen rc.ChannelName) rc.ChannelName w1.kv) := by
    unfold LLen
    rw [call_ok _ _ _ _ _ (reliable_head _ _ h1rC), srvLLen_list _ _ _ h1C]
  generalize hw2 : w1.after (Event.llen rc.ChannelName) rc.ChannelName w1.kv = w2 at hllen
  have h2rL : w2.reliable rc.ChannelLockerName := by
    rw [← hw2]; exact after_reliable _ _ _ _ _ h1rL
  have h2rC : w2.reliable rc.ChannelName := by
    rw [← hw2]; exact after_reliable _ _ _ _ _ h1rC
  have hpush : LPush rc.ChannelName val w2 =
      ((0, some Err.wrongArgs),
        w2.after (Event.lpush rc.ChannelName val.wire) rc.ChannelName w2.kv) := by
    unfold LPush
    rw [call_ok _ _ _ _ _ (reliable_head _ _ h2rC), hv, srvLPush_none]
  generalize hw3 : w2.after (Event.lpush rc.ChannelName val.wire) rc.ChannelName w2.kv
    = w3 at hpush
  have h3rL : w3.reliable rc.ChannelLockerName := by
    rw [← hw3]; exact after_reliable _ _ _ _ _ h2rL
  have h3rC : w3.reliable rc.ChannelName := by
    rw [← hw3]; exact after_reliable _ _ _ _ _ h2rC
  have hun := unlock_ok rc w3 (reliable_head _ _ h3rL)
  refine ⟨rc.unlock w3, ?_, ⟨hne, ?_, unlock_reliable _ _ _ h3rL, unlock_reliable _ _ _ h3rC⟩,
    ?_⟩
  · simp only [rchan.Push, hlock, hllen, hroom, if_false, hpush]
  · rw [hun]; simp
  · rw [hun, ← hw3, ← hw2, ← hw1]
    simp only [after_kv]
    exact KV.set_lock_release _ _ _ hL

theorem wire_one_length (v : GoVal) (h : ∃ s, v.wire = [s]) : v.wire.length = 1 := by
  obtain ⟨s, hs⟩ := h
  rw [hs]
  rfl

theorem pushAll_room (rc : rchan) (fuel : Nat) (vals : List GoVal) :
    ∀ (w : World) (xs : List String), Quiet rc w → w.kv rc.ChannelName = listVal xs →
      (∀ v ∈ vals, ∃ s, v.wire = [s]) →
      (rc.MaxLen > 0 → ((xs.length + vals.length : Nat) : Int) ≤ rc.MaxLen) →
      ∃ w1, rc.pushAll (fuel + 1) vals w = some (pushReplies xs.length vals.length, w1) ∧
        Quiet rc w1 ∧
        w1.kv rc.ChannelName = listVal ((vals.flatMap GoVal.wire).reverse ++ xs) := by
  induction vals with
  | nil =>
    intro w xs hq hc _ _
    exact ⟨w, rfl, hq, by simpa using hc⟩
  | cons v vs ih =>
    intro w xs hq hc hone hcap
    have hroom : ¬ (rc.MaxLen > 0 ∧ (xs.length : Int) ≥ rc.MaxLen) := by
      rintro ⟨h1, h2⟩
      have := hcap h1
      simp only [List.length_cons] at this
      omega
    obtain ⟨s, hs⟩ := hone v (by simp)
    obtain ⟨w1, hp, hq1, hkv, _⟩ := Push_room rc v fuel w xs hq hc hroom (by rw [hs]; simp)
    rw [hs] at hp hkv
    have hc1 : w1.kv rc.ChannelName = listVal (s :: xs) := by
      rw [hkv]; simp
    obtain ⟨w2, hrest, hq2, hkv2⟩ := ih w1 (s :: xs) hq1 hc1
      (fun u hu => hone u (by simp [hu])) (by
      intro h1
      have := hcap h1
      simp only [List.length_cons] at this ⊢
      omega)
    refine ⟨w2, ?_, hq2, ?_⟩
    · simp [rchan.pushAll, hp, hrest, pushReplies]
    · rw [hkv2]
      simp [List.flatMap_cons, hs]

theorem popN_all (rc : rchan) (fuel : Nat) (vals : List String) :
    ∀ (w : World), Quiet rc w → w.kv rc.ChannelName = listVal vals.reverse →
      ∃ w1, rc.popN (fuel + 1) vals.length w = some (vals.map (fun v => (v, none)), w1) ∧
        Quiet rc w1 ∧ w1.kv rc.ChannelName = none := by
  induction vals with
  | nil =>
    intro w hq hc
    exact ⟨w, rfl, hq, by simpa [listVal] using hc⟩
  | cons v vs ih =>
    intro w hq hc
    rw [List.reverse_cons] at hc
    obtain ⟨w1, hp, hq1, hkv, _⟩ := Pop_snoc rc fuel w vs.reverse v hq hc
    have hc1 : w1.kv rc.ChannelName = listVal vs.reverse := by
      rw [hkv]; simp
    obtain ⟨w2, hrest, hq2, hkv2⟩ := ih w1 hq1 hc1
    refine ⟨w2, ?_, hq2, hkv2⟩
    simp only [List.length_cons, rchan.popN, hp, hrest, List.map_cons]

theorem chanLen_congr (kv1 kv2 : KV) (key : String) (h : kv1 key = kv2 key) :
    chanLen kv1 key = chanLen kv2 key := by
  unfold chanLen
  rw [h]

theorem chanLen_listVal (kv : KV) (key : String) (xs : List String)
    (h : kv key = listVal xs) : chanLen kv key = xs.length := by
  unfold chanLen
  rw [h]
  cases xs <;> rfl

theorem flatMap_wire_length (vals : List GoVal) (h : ∀ v ∈ vals, ∃ s, v.wire = [s]) :
    (vals.flatMap GoVal.wire).length = vals.length := by
  induction vals with
  | nil => rfl
  | cons v vs ih =>
    obtain ⟨s, hs⟩ := h v (by simp)
    have := ih (fun u hu => h u (by simp [hu]))
    simp [List.flatMap_cons, hs, this]

/-! ## Capacity and order -/

/-- C1 as stated fails: with maximum length 2 on the empty channel, a first
Push of the slice `[]string{"a", "b"}` returns 2, and the second Push, still
within the first two calls, is refused with "channel is full"; a Push of nil is
refused by the store, which gets `LPUSH` without an element. -/
theorem slice_push_fills_the_channel_at_once :
    demoChan.MaxLen = 2 ∧
    (demoChan.pushAll 1 [GoVal.strs ["a", "b"], GoVal.str "c"] (demoWorld [])).map Prod.fst =
      some [(2, none), (0, some Err.channelFull)] ∧
    (demoChan.Push GoVal.nil 1 (demoWorld [])).map Prod.fst =
      some (0, some Err.wrongArgs) := by
  decide

/-- C1, amended: with a maximum length M > 0, on an empty channel with the lock
free and the store answering every call, pushing M values, each of which the
client writes as a single list element, succeeds M times (the replies are the
lengths 1, ..., M with a nil error), the next Push returns 0 with the "channel is
full" error, and that failed Push leaves the key space, hence the list of M
elements, as it was. -/
theorem push_beyond_MaxLen_is_refused (rc : rchan) (fuel : Nat) (w : World)
    (vals : List GoVal) (extra : GoVal)
    (hone : ∀ v ∈ vals, ∃ s, v.wire = [s])
    (hkeys : rc.ChannelName ≠ rc.ChannelLockerName)
    (hM : 0 < rc.MaxLen) (hlen : (vals.length : Int) = rc.MaxLen)
    (hempty : w.kv rc.ChannelName = none)
    (hfree : w.kv rc.ChannelLockerName = none)
    (hrelL : w.reliable rc.ChannelLockerName) (hrelC : w.reliable rc.ChannelName) :
    ∃ w1 w2,
      rc.pushAll (fuel + 1) vals w = some (pushReplies 0 vals.length, w1) ∧
      (∀ r ∈ pushReplies 0 vals.length, r.2 = none) ∧
      w1.kv rc.ChannelName = listVal (vals.flatMap GoVal.wire).reverse ∧
      rc.Push extra (fuel + 1) w1 = some ((0, some Err.channelFull), w2) ∧
      w2.kv = w1.kv ∧
      w2.kv rc.ChannelName = listVal (vals.flatMap GoVal.wire).reverse ∧
      ((chanLen w2.kv rc.ChannelName : Nat) : Int) = rc.MaxLen := by
  have hq : Quiet rc w := ⟨hkeys, hfree, hrelL, hrelC⟩
  obtain ⟨w1, hp, hq1, hkv1⟩ := pushAll_room rc fuel vals w [] hq
    (by simpa [listVal] using hempty) hone (by intro _; simp [hlen])
  simp only [List.length_nil, List.append_nil] at hp hkv1
  have hwl := flatMap_wire_length vals hone
  obtain ⟨w2, hpush, _, hkv2, _⟩ := Push_full rc extra fuel w1 _ hq1 hkv1
    ⟨hM, by simp [hwl, hlen]⟩
  refine ⟨w1, w2, hp, ?_, hkv1, hpush, hkv2, by rw [hkv2]; exact hkv1, ?_⟩
  · intro r hr
    have key : ∀ (n b : Nat) (r : Int × Option Err), r ∈ pushReplies b n → r.2 = none := by
      intro n
      induction n with
      | zero => intro b r h; simp [pushReplies] at h
      | succ k ih =>
        intro b r h
        simp only [pushReplies, List.mem_cons] at h
        rcases h with h | h
        · rw [h]
        · exact ih _ _ h
    exact key _ _ r hr
  · rw [hkv2, chanLen_listVal _ _ _ hkv1, List.length_reverse, hwl]
    exact hlen

/-- C2 as stated fails: a Push of the slice `[]string{"x", "y"}` followed by a
Pop returns "x", one element and not the pushed value; and a Push of the
integer 1700000000, the kind of value the test pushes, followed by a Pop
returns the string of its digits, not the integer. -/
theorem pop_does_not_return_a_pushed_slice :
    ((demoChan.Push (GoVal.strs ["x", "y"]) 1 (demoWorld [])).bind
      (fun p => demoChan.Pop 1 p.2)).map Prod.fst = some ("x", none) ∧
    GoVal.str "x" ≠ GoVal.strs ["x", "y"] ∧
    ((demoChan.Push (GoVal.int 1700000000) 1 (demoWorld [])).bind
      (fun p => demoChan.Pop 1 p.2)).map Prod.fst = some ("1700000000", none) ∧
    GoVal.str "1700000000" ≠ GoVal.int 1700000000 := by
  decide

/-- C2, amended: FIFO order. On an empty channel with the lock free and the
store answering every call, pushing v1..vn (n ≤ MaxLen, MaxLen > 0), each of
which the client writes as a single list element, succeeds n times, and n calls
of Pop then return in that order the strings written for v1, ..., vn, each with
a nil error; a Push of such a value followed by a Pop returns the string
written for it, and for a string value that is the value itself. -/
theorem pop_returns_pushed_values_in_order (rc : rchan) (fuel : Nat) (w : World)
    (vals : List GoVal)
    (hone : ∀ v ∈ vals, ∃ s, v.wire = [s])
    (hkeys : rc.ChannelName ≠ rc.ChannelLockerName)
    (hM : 0 < rc.MaxLen) (hlen : (vals.length : Int) ≤ rc.MaxLen)
    (hempty : w.kv rc.ChannelName = none)
    (hfree : w.kv rc.ChannelLockerName = none)
    (hrelL : w.reliable rc.ChannelLockerName) (hrelC : w.reliable rc.ChannelName) :
    (∃ w1 w2,
      rc.pushAll (fuel + 1) vals w = some (pushReplies 0 vals.length, w1) ∧
      rc.popN (fuel + 1) vals.length w1 =
        some ((vals.flatMap GoVal.wire).map (fun s => (s, none)), w2)) ∧
    (∀ (v : GoVal) (s : String), v.wire = [s] → ∃ w1 w2,
      rc.Push v (fuel + 1) w = some ((1, none), w1) ∧
      rc.Pop (fuel + 1) w1 = some ((s, none), w2)) ∧
    (∀ s : String, ∃ w1 w2,
      rc.Push (GoVal.str s) (fuel + 1) w = some ((1, none), w1) ∧
      rc.Pop (fuel + 1) w1 = some ((s, none), w2)) := by
  have hq : Quiet rc w := ⟨hkeys, hfree, hrelL, hrelC⟩
  have single : ∀ (v : GoVal) (s : String), v.wire = [s] → ∃ w1 w2,
      rc.Push v (fuel + 1) w = some ((1, none), w1) ∧
      rc.Pop (fuel + 1) w1 = some ((s, none), w2) := by
    intro v s hs
    have hroom : ¬ (rc.MaxLen > 0 ∧ (([] : List String).length : Int) ≥ rc.MaxLen) := by
      rintro ⟨_, h2⟩
      simp only [List.length_nil, Nat.cast_zero] at h2
      omega
    obtain ⟨w1, hp, hq1, hkv1, _⟩ := Push_room rc v fuel w [] hq
      (by simpa [listVal] using hempty) hroom (by rw [hs]; simp)
    rw [hs] at hp hkv1
    have hc1 : w1.kv rc.ChannelName = listVal ([] ++ [s]) := by
      rw [hkv1]; simp
    obtain ⟨w2, hpop, _, _, _⟩ := Pop_snoc rc fuel w1 [] s hq1 hc1
    exact ⟨w1, w2, by simpa using hp, hpop⟩
  refine ⟨?_, single, fun s => single (GoVal.str s) s rfl⟩
  obtain ⟨w1, hp, hq1, hkv1⟩ := pushAll_room rc fuel vals w [] hq
    (by simpa [listVal] using hempty) hone (by intro _; simpa using hlen)
  simp only [List.length_nil, List.append_nil] at hp hkv1
  obtain ⟨w2, hpop, _, _⟩ := popN_all rc fuel (vals.flatMap GoVal.wire) w1 hq1 hkv1
  rw [flatMap_wire_length vals hone] at hpop
  exact ⟨w1, w2, hp, hpop⟩

theorem srvLLen_err (key : String) (kv : KV) :
    (srvLLen key kv).1.2 ≠ some Err.channelFull := by
  unfold srvLLen
  split <;> simp

theorem srvLPush_err (key : String) (vals : List String) (kv : KV) :
    (srvLPush key vals kv).1.2 ≠ some Err.channelFull := by
  unfold srvLPush
  split
  · simp
  · split <;> simp

/-- C3 as stated fails: on the channel that holds "a", a Push of the slice
`[]string{"x", "y", "z"}` returns 4, not 2, and the list becomes z, y, x, a. -/
theorem slice_push_inserts_every_element :
    (openChan.Push (GoVal.strs ["x", "y", "z"]) 1 (demoWorld ["a"])).map
      (fun p => (p.1, p.2.kv defaultChannelName)) =
      some ((4, none), some (RVal.list ["z", "y", "x", "a"])) := by
  decide

/-- C3, amended: on a channel that holds the list xs of length n, with the lock
free and the store answering every call, if MaxLen = 0 or n < MaxLen then (1) a
Push of a value for which the client writes the elements e1..ek, k ≥ 1, returns
n + k with a nil error and the list becomes ek, ..., e1 followed by xs; (2) in
particular a Push of a value written as the single element s returns n + 1 and
the list becomes s followed by xs; (3) a Push of a value for which the client
writes no element returns 0 with the error of the store and changes nothing;
and (4) with MaxLen = 0 no Push that returns, in any world, returns the "channel
is full" error. -/
theorem push_with_room_inserts_at_head (rc : rchan) (fuel : Nat) (w : World)
    (xs : List String) (v : GoVal)
    (hkeys : rc.ChannelName ≠ rc.ChannelLockerName)
    (hroom : rc.MaxLen = 0 ∨ (xs.length : Int) < rc.MaxLen)
    (hchan : w.kv rc.ChannelName = listVal xs)
    (hfree : w.kv rc.ChannelLockerName = none)
    (hrelL : w.reliable rc.ChannelLockerName) (hrelC : w.reliable rc.ChannelName) :
    (v.wire ≠ [] →
      ∃ w1, rc.Push v (fuel + 1) w =
          some ((((xs.length : Int) + (v.wire.length : Int)), none), w1) ∧
        w1.kv rc.ChannelName = listVal (v.wire.reverse ++ xs) ∧
        (∀ k, k ≠ rc.ChannelName → w1.kv k = w.kv k)) ∧
    (∀ s : String, v.wire = [s] →
      ∃ w1, rc.Push v (fuel + 1) w = some ((((xs.length : Int) + 1), none), w1) ∧
        w1.kv rc.ChannelName = listVal (s :: xs) ∧
        (∀ k, k ≠ rc.ChannelName → w1.kv k = w.kv k)) ∧
    (v.wire = [] →
      ∃ w1, rc.Push v (fuel + 1) w = some ((0, some Err.wrongArgs), w1) ∧ w1.kv = w.kv) ∧
    (rc.MaxLen = 0 → ∀ (fuel1 : Nat) (w0 : World) (v0 : GoVal) (r : Int × Option Err)
      (w1 : World), rc.Push v0 fuel1 w0 = some (r, w1) → r.2 ≠ some Err.channelFull) := by
  have hq : Quiet rc w := ⟨hkeys, hfree, hrelL, hrelC⟩
  have hr : ¬ (rc.MaxLen > 0 ∧ (xs.length : Int) ≥ rc.MaxLen) := by
    rintro ⟨h1, h2⟩
    rcases hroom with h | h <;> omega
  have many : v.wire ≠ [] →
      ∃ w1, rc.Push v (fuel + 1) w =
          some ((((xs.length : Int) + (v.wire.length : Int)), none), w1) ∧
        w1.kv rc.ChannelName = listVal (v.wire.reverse ++ xs) ∧
        (∀ k, k ≠ rc.ChannelName → w1.kv k = w.kv k) := by
    intro hv
    obtain ⟨w1, hp, _, hkv1, _⟩ := Push_room rc v fuel w xs hq hchan hr hv
    refine ⟨w1, hp, by rw [hkv1]; simp, ?_⟩
    intro k hk
    rw [hkv1]
    simp [hk]
  refine ⟨many, ?_, ?_, ?_⟩
  · intro s hs
    obtain ⟨w1, hp, hkv, hfr⟩ := many (by rw [hs]; simp)
    rw [hs] at hp hkv
    exact ⟨w1, by simpa using hp, by simpa using hkv, hfr⟩
  · intro hv
    obtain ⟨w1, hp, _, hkv1⟩ := Push_none rc v fuel w xs hq hchan hr hv
    exact ⟨w1, hp, hkv1⟩
  · intro h0 fuel1 w0 v0 r w1 h
    unfold rchan.Push at h
    cases hl : rc.lock fuel1 w0 with
    | none => rw [hl] at h; simp at h
    | some wl =>
      rw [hl] at h
      simp only [Option.some.injEq, Prod.mk.injEq] at h
      rw [← h.1]
      have hA : (LLen rc.ChannelName wl).1.2 ≠ some Err.channelFull :=
        call_result wl (Event.llen rc.ChannelName) rc.ChannelName 0 (srvLLen rc.ChannelName)
          (fun r => r.2 ≠ some Err.channelFull) (by simp) (srvLLen_err rc.ChannelName)
      split
      · rename_i l err w2 heq
        intro hc
        apply hA
        rw [heq]
        exact hc
      · rename_i l w2 heq
        have hnot : ¬ (rc.MaxLen > 0 ∧ l ≥ rc.MaxLen) := by
          rintro ⟨h1, _⟩; omega
        simp only [hnot, if_false]
        exact call_result w2 _ rc.ChannelName 0 (srvLPush rc.ChannelName v0.wire)
          (fun r => r.2 ≠ some Err.channelFull) (by simp) (srvLPush_err rc.ChannelName v0.wire)

theorem srvDel_count (key : String) (kv : KV) :
    (srvDel key kv).1 = (0, none) ∨ (srvDel key kv).1 = (1, none) := by
  unfold srvDel
  split <;> simp

/-- C4: on a channel that holds the list xs, with the lock free and the store
answering every call, Del returns 1 with a nil error when xs is non-empty and 0
when it is empty, the channel key is absent afterwards, the next Len returns 0
and the next Pop returns the empty string with the store's nil reply; and in
any world at all the count a returning Del reports is 0 or 1. -/
theorem del_clears_the_channel (rc : rchan) (fuel : Nat) (w : World) (xs : List String)
    (hkeys : rc.ChannelName ≠ rc.ChannelLockerName)
    (hchan : w.kv rc.ChannelName = listVal xs)
    (hfree : w.kv rc.ChannelLockerName = none)
    (hrelL : w.reliable rc.ChannelLockerName) (hrelC : w.reliable rc.ChannelName) :
    (∃ w1 w2, rc.Del (fuel + 1) w = some (((if xs = [] then 0 else 1), none), w1) ∧
      w1.kv rc.ChannelName = none ∧
      (rc.Len w1).1 = (0, none) ∧
      rc.Pop (fuel + 1) w1 = some (("", some Err.redisNil), w2)) ∧
    (∀ (fuel1 : Nat) (w0 : World) (r : Int × Option Err) (w1 : World),
      rc.Del fuel1 w0 = some (r, w1) → r.1 = 0 ∨ r.1 = 1) := by
  have hq : Quiet rc w := ⟨hkeys, hfree, hrelL, hrelC⟩
  constructor
  · obtain ⟨w1, hd, hq1, hkv1, _⟩ := Del_quiet rc fuel w xs hq hchan
    have hc1 : w1.kv rc.ChannelName = none := by rw [hkv1]; simp
    obtain ⟨w2, hpop, _, _, _⟩ := Pop_empty rc fuel w1 hq1 hc1
    have hlen := (Len_quiet rc w1 [] hq1.relC (by simpa [listVal] using hc1)).1
    exact ⟨w1, w2, hd, hc1, by simpa using hlen, hpop⟩
  · intro fuel1 w0 r w1 h
    unfold rchan.Del at h
    cases hl : rc.lock fuel1 w0 with
    | none => rw [hl] at h; simp at h
    | some wl =>
      rw [hl] at h
      simp only [Option.some.injEq, Prod.mk.injEq] at h
      rw [← h.1]
      exact call_result wl (Event.del rc.ChannelName) rc.ChannelName 0
        (srvDel rc.ChannelName) (fun r => r.1 = 0 ∨ r.1 = 1) (Or.inl rfl)
        (fun kv => by rcases srvDel_count rc.ChannelName kv with e | e <;> simp [e])

/-- C5: on an empty channel, with the lock free and the store answering every
call, Pop returns the empty string together with the nil reply of the removal
call and no other error, its calls are the conditional set of the lock, the
removal, a sleep of 100 ms and only then the release of the lock, and the key
space, hence the empty channel, is as before. -/
theorem pop_on_empty_channel (rc : rchan) (fuel : Nat) (w : World)
    (hkeys : rc.ChannelName ≠ rc.ChannelLockerName)
    (hempty : w.kv rc.ChannelName = none)
    (hfree : w.kv rc.ChannelLockerName = none)
    (hrelL : w.reliable rc.ChannelLockerName) (hrelC : w.reliable rc.ChannelName) :
    ∃ w1, rc.Pop (fuel + 1) w = some (("", some Err.redisNil), w1) ∧
      w1.log = w.log ++ [Event.setnx rc.ChannelLockerName, Event.rpop rc.ChannelName,
        Event.sleep 100, Event.del rc.ChannelLockerName] ∧
      w1.kv = w.kv ∧ w1.kv rc.ChannelName = none := by
  obtain ⟨w1, hp, _, hkv, hlog⟩ := Pop_empty rc fuel w ⟨hkeys, hfree, hrelL, hrelC⟩ hempty
  exact ⟨w1, hp, hlog, hkv, by rw [hkv]; exact hempty⟩

theorem srvLLen_kv (key : String) (kv : KV) : (srvLLen key kv).2 = kv := by
  unfold srvLLen
  split <;> rfl

theorem srvLPush_other (key : String) (vals : List String) (kv : KV) (k : String)
    (hk : k ≠ key) : (srvLPush key vals kv).2 k = kv k := by
  unfold srvLPush
  split
  · rfl
  · split
    · simp [hk]
    · simp [hk]
    · rfl

theorem srvRPop_other (key : String) (kv : KV) (k : String) (hk : k ≠ key) :
    (srvRPop key kv).2 k = kv k := by
  unfold srvRPop
  split
  · rfl
  · split <;> simp [hk]
  · rfl

/-- A call on another key leaves the lock key and the outcomes of the calls on
the lock key as they were. -/
theorem call_keeps_lock {α : Type} (w : World) (e : Event) (key L : String) (zero : α)
    (srv : KV → (α × Option Err) × KV) (hne : key ≠ L)
    (hsrv : ∀ kv, (srv kv).2 L = kv L) :
    (w.call e key zero srv).2.kv L = w.kv L ∧ (w.call e key zero srv).2.net L = w.net L :=
  ⟨call_kv w e key zero srv (fun kv => kv L = w.kv L) (fun kv h => (hsrv kv).trans h) rfl,
    call_net_other w e key zero srv L (Ne.symm hne)⟩

/-- C6 as stated fails: on the empty channel with the lock free, when the `DEL`
that `unlock` sends never reaches the store, Push returns 1 with a nil error
and the lock key is still in the store. -/
theorem refused_unlock_leaves_the_lock_key :
    (stuckWorld []).kv defaultChannelLockerName = none ∧
    (demoChan.Push (GoVal.str "x") 1 (stuckWorld [])).map
      (fun p => (p.1, p.2.kv defaultChannelLockerName)) =
      some ((1, none), some (RVal.str "1")) := by
  decide

/-- C6, amended: with distinct keys, when the lock key is absent, the
conditional set of `lock` goes through and the store executes the `DEL` that
`unlock` sends (its reply may be lost), then Push, Pop and Del each take the
lock, so that the lock key is present from the return of `lock` up to the
`unlock`, they return whatever the network does with their calls on the channel
key (answered, refused, executed with the reply lost, sent again) and whatever
the channel holds, their calls begin with the conditional set that took the
lock and end with the `DEL` of the lock key, and the lock key is absent from
the store when they have returned. -/
theorem lock_released_on_every_return (rc : rchan) (fuel : Nat) (w : World) (v : GoVal)
    (hkeys : rc.ChannelName ≠ rc.ChannelLockerName)
    (hfree : w.kv rc.ChannelLockerName = none)
    (hset : (w.net rc.ChannelLockerName).headD Net.ok = Net.ok)
    (hdel : ((w.net rc.ChannelLockerName).tail.headD Net.ok).executed = true) :
    (∃ r wa wb evs, rc.lock (fuel + 1) w = some wa ∧
      wa.kv rc.ChannelLockerName = some (RVal.str "1") ∧
      rc.Push v (fuel + 1) w = some (r, rc.unlock wb) ∧
      wb.kv rc.ChannelLockerName = some (RVal.str "1") ∧
      (rc.unlock wb).kv rc.ChannelLockerName = none ∧
      (rc.unlock wb).log = w.log ++ [Event.setnx rc.ChannelLockerName] ++ evs ++
        [Event.del rc.ChannelLockerName]) ∧
    (∃ r wa wb evs, rc.lock (fuel + 1) w = some wa ∧
      wa.kv rc.ChannelLockerName = some (RVal.str "1") ∧
      rc.Pop (fuel + 1) w = some (r, rc.unlock wb) ∧
      wb.kv rc.ChannelLockerName = some (RVal.str "1") ∧
      (rc.unlock wb).kv rc.ChannelLockerName = none ∧
      (rc.unlock wb).log = w.log ++ [Event.setnx rc.ChannelLockerName] ++ evs ++
        [Event.del rc.ChannelLockerName]) ∧
    (∃ r wa wb evs, rc.lock (fuel + 1) w = some wa ∧
      wa.kv rc.ChannelLockerName = some (RVal.str "1") ∧
      rc.Del (fuel + 1) w = some (r, rc.unlock wb) ∧
      wb.kv rc.ChannelLockerName = some (RVal.str "1") ∧
      (rc.unlock wb).kv rc.ChannelLockerName = none ∧
      (rc.unlock wb).log = w.log ++ [Event.setnx rc.ChannelLockerName] ++ evs ++
        [Event.del rc.ChannelLockerName]) := by
  have hlock := lock_free rc fuel w hfree hset
  generalize hw1 : w.after (Event.setnx rc.ChannelLockerName) rc.ChannelLockerName
        (w.kv.set rc.ChannelLockerName (some (RVal.str "1"))) = w1 at hlock
  have h1k : w1.kv rc.ChannelLockerName = some (RVal.str "1") := by
    rw [← hw1]; simp
  have h1n : w1.net rc.ChannelLockerName = (w.net rc.ChannelLockerName).tail := by
    rw [← hw1]; simp [World.after]
  have h1l : w1.log = w.log ++ [Event.setnx rc.ChannelLockerName] := by
    rw [← hw1]; rfl
  -- what the body of an operation keeps
  have fin : ∀ (wb : World) (evs : List Event),
      wb.kv rc.ChannelLockerName = w1.kv rc.ChannelLockerName →
      wb.net rc.ChannelLockerName = w1.net rc.ChannelLockerName →
      wb.log = w1.log ++ evs →
      wb.kv rc.ChannelLockerName = some (RVal.str "1") ∧
      (rc.unlock wb).kv rc.ChannelLockerName = none ∧
      (rc.unlock wb).log = w.log ++ [Event.setnx rc.ChannelLockerName] ++ evs ++
        [Event.del rc.ChannelLockerName] := by
    intro wb evs hk hn hlog
    refine ⟨by rw [hk, h1k], unlock_executed rc wb ?_, ?_⟩
    · rw [hn, h1n]
      exact hdel
    · rw [unlock_log, hlog, h1l]
  have hllen := call_keeps_lock w1 (Event.llen rc.ChannelName) rc.ChannelName
    rc.ChannelLockerName 0 (srvLLen rc.ChannelName) hkeys
    (fun kv => by rw [srvLLen_kv])
  have hllog : (LLen rc.ChannelName w1).2.log = w1.log ++ [Event.llen rc.ChannelName] :=
    call_log _ _ _ _ _
  have hrpop := call_keeps_lock w1 (Event.rpop rc.ChannelName) rc.ChannelName
    rc.ChannelLockerName "" (srvRPop rc.ChannelName) hkeys
    (fun kv => srvRPop_other _ kv _ (Ne.symm hkeys))
  have hrlog : (RPop rc.ChannelName w1).2.log = w1.log ++ [Event.rpop rc.ChannelName] :=
    call_log _ _ _ _ _
  have hrdel := call_keeps_lock w1 (Event.del rc.ChannelName) rc.ChannelName
    rc.ChannelLockerName 0 (srvDel rc.ChannelName) hkeys
    (fun kv => srvDel_other _ kv _ (Ne.symm hkeys))
  have hdlog : (RDel rc.ChannelName w1).2.log = w1.log ++ [Event.del rc.ChannelName] :=
    call_log _ _ _ _ _
  refine ⟨?_, ?_, ?_⟩
  · have body : ∃ r wb evs, rc.Push v (fuel + 1) w = some (r, rc.unlock wb) ∧
        wb.kv rc.ChannelLockerName = w1.kv rc.ChannelLockerName ∧
        wb.net rc.ChannelLockerName = w1.net rc.ChannelLockerName ∧
        wb.log = w1.log ++ evs := by
      unfold rchan.Push
      rw [hlock]
      simp only
      have hl : LLen rc.ChannelName w1 =
          w1.call (Event.llen rc.ChannelName) rc.ChannelName 0 (srvLLen rc.ChannelName) := rfl
      rw [← hl] at hllen
      split
      · rename_i l err w2 heq
        rw [heq] at hllen hllog
        exact ⟨_, w2, _, rfl, hllen.1, hllen.2, hllog⟩
      · rename_i l w2 heq
        rw [heq] at hllen hllog
        split
        · exact ⟨_, w2, _, rfl, hllen.1, hllen.2, hllog⟩
        · have hp := call_keeps_lock w2 (Event.lpush rc.ChannelName v.wire) rc.ChannelName
            rc.ChannelLockerName 0 (srvLPush rc.ChannelName v.wire) hkeys
            (fun kv => srvLPush_other _ _ kv _ (Ne.symm hkeys))
          have hpl : (LPush rc.ChannelName v w2).2.log =
              w2.log ++ [Event.lpush rc.ChannelName v.wire] := call_log _ _ _ _ _
          refine ⟨_, _, [Event.llen rc.ChannelName, Event.lpush rc.ChannelName v.wire], rfl,
            hp.1.trans hllen.1, hp.2.trans hllen.2, ?_⟩
          have hw2 : w2.log = w1.log ++ [Event.llen rc.ChannelName] := hllog
          rw [hpl, hw2]
          simp
    obtain ⟨r, wb, evs, hp, hk, hn, hlog⟩ := body
    obtain ⟨f1, f2, f3⟩ := fin wb evs hk hn hlog
    exact ⟨r, w1, wb, evs, hlock, h1k, hp, f1, f2, f3⟩
  · have body : ∃ r wb evs, rc.Pop (fuel + 1) w = some (r, rc.unlock wb) ∧
        wb.kv rc.ChannelLockerName = w1.kv rc.ChannelLockerName ∧
        wb.net rc.ChannelLockerName = w1.net rc.ChannelLockerName ∧
        wb.log = w1.log ++ evs := by
      unfold rchan.Pop
      rw [hlock]
      simp only
      have hl : RPop rc.ChannelName w1 =
          w1.call (Event.rpop rc.ChannelName) rc.ChannelName "" (srvRPop rc.ChannelName) := rfl
      rw [← hl] at hrpop
      by_cases hx : (RPop rc.ChannelName w1).1.1 = ""
      · refine ⟨_, _, [Event.rpop rc.ChannelName, Event.sleep 100], rfl, ?_, ?_, ?_⟩
        · simp only [hx, if_true]; exact hrpop.1
        · simp only [hx, if_true]; exact hrpop.2
        · simp only [hx, if_true, sleep_log, hrlog]
          simp
      · refine ⟨_, _, [Event.rpop rc.ChannelName], rfl, ?_, ?_, ?_⟩
        · simp only [hx, if_false]; exact hrpop.1
        · simp only [hx, if_false]; exact hrpop.2
        · simp only [hx, if_false, hrlog]
    obtain ⟨r, wb, evs, hp, hk, hn, hlog⟩ := body
    obtain ⟨f1, f2, f3⟩ := fin wb evs hk hn hlog
    exact ⟨r, w1, wb, evs, hlock, h1k, hp, f1, f2, f3⟩
  · have body : ∃ r wb evs, rc.Del (fuel + 1) w = some (r, rc.unlock wb) ∧
        wb.kv rc.ChannelLockerName = w1.kv rc.ChannelLockerName ∧
        wb.net rc.ChannelLockerName = w1.net rc.ChannelLockerName ∧
        wb.log = w1.log ++ evs := by
      unfold rchan.Del
      rw [hlock]
      exact ⟨_, _, _, rfl, hrdel.1, hrdel.2, hdlog⟩
    obtain ⟨r, wb, evs, hp, hk, hn, hlog⟩ := body
    obtain ⟨f1, f2, f3⟩ := fin wb evs hk hn hlog
    exact ⟨r, w1, wb, evs, hlock, h1k, hp, f1, f2, f3⟩

/-! ## The capacity invariant, whatever the network does -/

theorem after_unrepeated (w : World) (e : Event) (key : String) (kv : KV) (k : String)
    (h : w.unrepeated k) : (w.after e key kv).unrepeated k := by
  unfold World.unrepeated at *
  intro o ho
  by_cases hk : k = key
  · subst hk
    simp only [World.after, if_true] at ho
    exact h o (List.mem_of_mem_tail ho)
  · simp only [World.after, hk, if_false] at ho
    exact h o ho

theorem call_unrepeated {α : Type} (w : World) (e : Event) (key : String) (zero : α)
    (srv : KV → (α × Option Err) × KV) (k : String) (h : w.unrepeated k) :
    (w.call e key zero srv).2.unrepeated k := by
  rw [call_world]
  exact after_unrepeated _ _ _ _ _ h

theorem unrepeated_head (w : World) (key : String) (h : w.unrepeated key) :
    ((w.net key).headD Net.ok).single = true := by
  unfold World.unrepeated at h
  cases hq : w.net key with
  | nil => rfl
  | cons a t =>
    rw [hq] at h
    simpa using h a (by simp)

theorem reliable_unrepeated (w : World) (key : String) (h : w.reliable key) :
    w.unrepeated key := by
  intro o ho
  rw [h o ho]
  rfl

theorem lock_unrepeated (rc : rchan) (fuel : Nat) (k : String) :
    ∀ (w w1 : World), rc.lock fuel w = some w1 → w.unrepeated k → w1.unrepeated k := by
  induction fuel with
  | zero => intro w w1 h; simp [rchan.lock] at h
  | succ n ih =>
    intro w w1 h hu
    have h1 : (SetNX rc.ChannelLockerName "1" w).2.unrepeated k :=
      call_unrepeated _ _ _ _ _ _ hu
    unfold rchan.lock at h
    generalize SetNX rc.ChannelLockerName "1" w = res at h h1
    obtain ⟨⟨success, err⟩, w2⟩ := res
    simp only at h h1
    cases success with
    | true =>
      simp only [if_true, Option.some.injEq] at h
      subst h
      exact h1
    | false =>
      simp only [Bool.false_eq_true, if_false] at h
      exact ih _ w1 h h1

theorem unlock_unrepeated (rc : rchan) (w : World) (k : String) (h : w.unrepeated k) :
    (rc.unlock w).unrepeated k :=
  call_unrepeated _ _ _ _ _ _ h

theorem srvLLen_len (key : String) (kv : KV) (l : Int) (h : (srvLLen key kv).1 = (l, none)) :
    l = (chanLen kv key : Int) := by
  unfold srvLLen at h
  unfold chanLen
  split at h <;> simp_all

theorem srvLPush_len (key : String) (vals : List String) (kv : KV) :
    chanLen (srvLPush key vals kv).2 key ≤ chanLen kv key + vals.length := by
  unfold srvLPush
  split
  · simp
  · split
    · rename_i h
      simp [chanLen, h]
    · rename_i xs h
      simp [chanLen, h]
      omega
    · rename_i h
      simp [chanLen, h]

theorem srvRPop_len (key : String) (kv : KV) :
    chanLen (srvRPop key kv).2 key ≤ chanLen kv key := by
  unfold srvRPop
  split
  · exact le_refl _
  · rename_i xs h
    split
    · simp [chanLen]
    · rw [chanLen_listVal _ key xs.dropLast (by simp)]
      simp [chanLen, h]
  · exact le_refl _

theorem srvDel_len (key : String) (kv : KV) :
    chanLen (srvDel key kv).2 key ≤ chanLen kv key := by
  unfold srvDel
  split
  · exact le_refl _
  · simp [chanLen]

theorem LLen_kv (key : String) (w : World) : (LLen key w).2.kv = w.kv :=
  call_kv w _ key 0 (srvLLen key) (fun kv => kv = w.kv)
    (fun kv h => (srvLLen_kv key kv).trans h) rfl

theorem LLen_len (key : String) (w : World) (l : Int) (h : (LLen key w).1 = (l, none)) :
    l = (chanLen w.kv key : Int) := by
  unfold LLen at h
  rcases (call_spec w (Event.llen key) key 0 (srvLLen key) (fun kv => kv = w.kv)
    (fun kv h => (srvLLen_kv key kv).trans h) rfl).2 with h1 | ⟨kv1, hk1, h1, _⟩
  · rw [h1] at h; simp at h
  · rw [h1, hk1] at h
    exact srvLLen_len key w.kv l h

/-- An `LPUSH` that the store executes at most once adds at most as many
elements as the client wrote for the value. -/
theorem LPush_len (key : String) (val : GoVal) (w : World)
    (h : ((w.net key).headD Net.ok).single = true) :
    chanLen (LPush key val w).2.kv key ≤ chanLen w.kv key + val.wire.length := by
  unfold LPush
  rcases call_single w (Event.lpush key val.wire) key 0 (srvLPush key val.wire) h with
    h1 | h1 | h1 <;>
  · rw [h1]
    first | exact srvLPush_len key val.wire w.kv | simp

theorem RPop_len (key : String) (w : World) :
    chanLen (RPop key w).2.kv key ≤ chanLen w.kv key :=
  call_kv w _ key "" (srvRPop key) (fun kv => chanLen kv key ≤ chanLen w.kv key)
    (fun kv h => le_trans (srvRPop_len key kv) h) (le_refl _)

theorem RDel_len (key : String) (w : World) :
    chanLen (RDel key w).2.kv key ≤ chanLen w.kv key :=
  call_kv w _ key 0 (srvDel key) (fun kv => chanLen kv key ≤ chanLen w.kv key)
    (fun kv h => le_trans (srvDel_len key kv) h) (le_refl _)

theorem lock_len (rc : rchan) (fuel : Nat) (w w1 : World)
    (hkeys : rc.ChannelName ≠ rc.ChannelLockerName) (h : rc.lock fuel w = some w1) :
    chanLen w1.kv rc.ChannelName = chanLen w.kv rc.ChannelName := by
  obtain ⟨_, hkv, _⟩ := lock_some rc fuel w w1 h
  apply chanLen_congr
  rw [hkv]
  simp [hkeys]

theorem unlock_len (rc : rchan) (w : World) (hkeys : rc.ChannelName ≠ rc.ChannelLockerName) :
    chanLen (rc.unlock w).kv rc.ChannelName = chanLen w.kv rc.ChannelName :=
  chanLen_congr _ _ _ (unlock_kv_other rc w _ hkeys)

theorem Push_len (rc : rchan) (val : GoVal) (fuel : Nat) (w w1 : World)
    (r : Int × Option Err) (hkeys : rc.ChannelName ≠ rc.ChannelLockerName)
    (hM : 0 < rc.MaxLen) (hval : val.wire.length ≤ 1)
    (hu : w.unrepeated rc.ChannelName) (h : rc.Push val fuel w = some (r, w1))
    (hinv : (chanLen w.kv rc.ChannelName : Int) ≤ rc.MaxLen) :
    (chanLen w1.kv rc.ChannelName : Int) ≤ rc.MaxLen ∧ w1.unrepeated rc.ChannelName := by
  unfold rchan.Push at h
  cases hl : rc.lock fuel w with
  | none => rw [hl] at h; simp at h
  | some wl =>
    rw [hl] at h
    simp only [Option.some.injEq, Prod.mk.injEq] at h
    rw [← h.2, unlock_len rc _ hkeys]
    have h0 := lock_len rc fuel w wl hkeys hl
    have hul := lock_unrepeated rc fuel rc.ChannelName w wl hl hu
    have hk := LLen_kv rc.ChannelName wl
    have hu2 : (LLen rc.ChannelName wl).2.unrepeated rc.ChannelName :=
      call_unrepeated _ _ _ _ _ _ hul
    split
    · rename_i l err w2 heq
      rw [heq] at hk hu2
      simp only at hk hu2 ⊢
      rw [hk, h0]
      exact ⟨hinv, unlock_unrepeated _ _ _ hu2⟩
    · rename_i l w2 heq
      rw [heq] at hk hu2
      simp only at hk hu2
      have hlen := LLen_len rc.ChannelName wl l (by rw [heq])
      split
      · simp only
        rw [hk, h0]
        exact ⟨hinv, unlock_unrepeated _ _ _ hu2⟩
      · rename_i hnot
        have hp := LPush_len rc.ChannelName val w2 (unrepeated_head _ _ hu2)
        rw [hk] at hp
        have : l < rc.MaxLen := by
          by_contra hc
          exact hnot ⟨hM, by omega⟩
        refine ⟨by omega, unlock_unrepeated _ _ _ ?_⟩
        exact call_unrepeated _ _ _ _ _ _ hu2

theorem exec_len (rc : rchan) (fuel : Nat) (op : Op) (w w1 : World)
    (hkeys : rc.ChannelName ≠ rc.ChannelLockerName)
    (hM : 0 < rc.MaxLen) (hval : ∀ v, op = Op.push v → v.wire.length ≤ 1)
    (hu : w.unrepeated rc.ChannelName) (h : rc.exec fuel op w = some w1)
    (hinv : (chanLen w.kv rc.ChannelName : Int) ≤ rc.MaxLen) :
    (chanLen w1.kv rc.ChannelName : Int) ≤ rc.MaxLen ∧ w1.unrepeated rc.ChannelName := by
  cases op with
  | push val =>
    simp only [rchan.exec] at h
    cases hp : rc.Push val fuel w with
    | none => simp [hp] at h
    | some p =>
      obtain ⟨r, w2⟩ := p
      simp only [hp, Option.map_some', Option.some.injEq] at h
      subst h
      exact Push_len rc val fuel w w2 r hkeys hM (hval val rfl) hu hp hinv
  | pop =>
    simp only [rchan.exec, rchan.Pop] at h
    cases hl : rc.lock fuel w with
    | none => rw [hl] at h; simp at h
    | some wl =>
      rw [hl] at h
      simp only [Option.map_some', Option.some.injEq] at h
      rw [← h, unlock_len rc _ hkeys]
      have h0 := lock_len rc fuel w wl hkeys hl
      have hul := lock_unrepeated rc fuel rc.ChannelName w wl hl hu
      have hp := RPop_len rc.ChannelName wl
      have hu2 : (RPop rc.ChannelName wl).2.unrepeated rc.ChannelName :=
        call_unrepeated _ _ _ _ _ _ hul
      have hk : chanLen (if (RPop rc.ChannelName wl).1.1 = "" then
          (RPop rc.ChannelName wl).2.sleep 100 else (RPop rc.ChannelName wl).2).kv
          rc.ChannelName = chanLen (RPop rc.ChannelName wl).2.kv rc.ChannelName := by
        split <;> rfl
      have hn : (if (RPop rc.ChannelName wl).1.1 = "" then
          (RPop rc.ChannelName wl).2.sleep 100 else (RPop rc.ChannelName wl).2).unrepeated
          rc.ChannelName := by
        split
        · exact hu2
        · exact hu2
      rw [hk]
      exact ⟨by omega, unlock_unrepeated _ _ _ hn⟩
  | del =>
    simp only [rchan.exec, rchan.Del] at h
    cases hl : rc.lock fuel w with
    | none => rw [hl] at h; simp at h
    | some wl =>
      rw [hl] at h
      simp only [Option.map_some', Option.some.injEq] at h
      rw [← h, unlock_len rc _ hkeys]
      have h0 := lock_len rc fuel w wl hkeys hl
      have hul := lock_unrepeated rc fuel rc.ChannelName w wl hl hu
      have hp := RDel_len rc.ChannelName wl
      refine ⟨by omega, unlock_unrepeated _ _ _ ?_⟩
      exact call_unrepeated _ _ _ _ _ _ hul

theorem run_len (rc : rchan) (fuel : Nat) (ops : List Op)
    (hkeys : rc.ChannelName ≠ rc.ChannelLockerName) (hM : 0 < rc.MaxLen) :
    ∀ (w w1 : World), (∀ v, Op.push v ∈ ops → v.wire.length ≤ 1) →
      w.unrepeated rc.ChannelName → rc.run fuel ops w = some w1 →
      (chanLen w.kv rc.ChannelName : Int) ≤ rc.MaxLen →
      (chanLen w1.kv rc.ChannelName : Int) ≤ rc.MaxLen ∧ w1.unrepeated rc.ChannelName := by
  induction ops with
  | nil =>
    intro w w1 _ hu h hinv
    simp only [rchan.run, Option.some.injEq] at h
    rw [← h]
    exact ⟨hinv, hu⟩
  | cons op ops ih =>
    intro w w1 hval hu h hinv
    simp only [rchan.run] at h
    cases he : rc.exec fuel op w with
    | none => rw [he] at h; simp at h
    | some w2 =>
      rw [he] at h
      obtain ⟨h2, hu2⟩ := exec_len rc fuel op w w2 hkeys hM
        (fun v hv => hval v (by simp [hv])) hu he hinv
      exact ih w2 w1 (fun v hv => hval v (by simp [hv])) hu2 h h2

theorem exec_quiet (rc : rchan) (fuel : Nat) (op : Op) (w : World) (xs : List String)
    (hq : Quiet rc w) (hc : w.kv rc.ChannelName = listVal xs) :
    ∃ w1 ys, rc.exec (fuel + 1) op w = some w1 ∧ Quiet rc w1 ∧
      w1.kv rc.ChannelName = listVal ys := by
  cases op with
  | push val =>
    by_cases hfull : rc.MaxLen > 0 ∧ (xs.length : Int) ≥ rc.MaxLen
    · obtain ⟨w1, hp, hq1, hkv, _⟩ := Push_full rc val fuel w xs hq hc hfull
      exact ⟨w1, xs, by simp [rchan.exec, hp], hq1, by rw [hkv]; exact hc⟩
    · by_cases hv : val.wire = []
      · obtain ⟨w1, hp, hq1, hkv⟩ := Push_none rc val fuel w xs hq hc hfull hv
        exact ⟨w1, xs, by simp [rchan.exec, hp], hq1, by rw [hkv]; exact hc⟩
      · obtain ⟨w1, hp, hq1, hkv, _⟩ := Push_room rc val fuel w xs hq hc hfull hv
        exact ⟨w1, val.wire.reverse ++ xs, by simp [rchan.exec, hp], hq1, by rw [hkv]; simp⟩
  | pop =>
    rcases List.eq_nil_or_concat xs with hx | ⟨ys, y, hx⟩
    · subst hx
      obtain ⟨w1, hp, hq1, hkv, _⟩ := Pop_empty rc fuel w hq (by simpa [listVal] using hc)
      exact ⟨w1, [], by simp [rchan.exec, hp], hq1, by rw [hkv]; exact hc⟩
    · subst hx
      rw [List.concat_eq_append] at hc
      obtain ⟨w1, hp, hq1, hkv, _⟩ := Pop_snoc rc fuel w ys y hq hc
      exact ⟨w1, ys, by simp [rchan.exec, hp], hq1, by rw [hkv]; simp⟩
  | del =>
    obtain ⟨w1, hp, hq1, hkv, _⟩ := Del_quiet rc fuel w xs hq hc
    exact ⟨w1, [], by simp [rchan.exec, hp], hq1, by rw [hkv]; simp [listVal]⟩

theorem run_quiet (rc : rchan) (fuel : Nat) (ops : List Op) :
    ∀ (w : World) (xs : List String), Quiet rc w → w.kv rc.ChannelName = listVal xs →
      ∃ w1, rc.run (fuel + 1) ops w = some w1 := by
  induction ops with
  | nil => intro w _ _ _; exact ⟨w, rfl⟩
  | cons op ops ih =>
    intro w xs hq hc
    obtain ⟨w1, ys, he, hq1, hc1⟩ := exec_quiet rc fuel op w xs hq hc
    obtain ⟨w2, hr⟩ := ih w1 ys hq1 hc1
    exact ⟨w2, by simp only [rchan.run, he, hr]⟩

/-- C7 as stated fails: with maximum length 2, from the empty channel, one Push
of a slice of four strings leaves 4 elements; and two pushes of one string each
leave 3 elements when the connection breaks after the store has executed the
second `LPUSH` and the client sends it again. -/
theorem slice_or_resent_push_exceeds_MaxLen :
    demoChan.MaxLen = 2 ∧
    (demoChan.run 1 [Op.push (GoVal.strs ["a", "b", "c", "d"])] (demoWorld [])).map
      (fun w => chanLen w.kv defaultChannelName) = some 4 ∧
    resendWorld.kv defaultChannelName = none ∧
    (demoChan.run 1 [Op.push (GoVal.str "a"), Op.push (GoVal.str "x")] resendWorld).map
      (fun w => chanLen w.kv defaultChannelName) = some 3 := by
  decide

/-- C7, amended: capacity invariant. With a maximum length M > 0 and distinct
channel and lock keys, as long as every pushed value is one that the client
writes as at most one list element and the client sends no command on the
channel key a second time, from an empty channel every world reached by a
finite sequence of Push, Pop and Del calls made one at a time holds at most M
elements under the channel key, whatever else the network does with each call
(answered, refused, executed with the reply lost); the same holds right after
any further such Push that returns, accepted or not; and when the lock is free
and the store answers every call, every sequence of calls does run to its
end. -/
theorem length_never_exceeds_MaxLen (rc : rchan) (w : World)
    (hkeys : rc.ChannelName ≠ rc.ChannelLockerName)
    (hM : 0 < rc.MaxLen) (hempty : w.kv rc.ChannelName = none)
    (hsingle : w.unrepeated rc.ChannelName) :
    (∀ (fuel : Nat) (ops : List Op) (w1 : World),
      (∀ v, Op.push v ∈ ops → v.wire.length ≤ 1) → rc.run fuel ops w = some w1 →
      (chanLen w1.kv rc.ChannelName : Int) ≤ rc.MaxLen) ∧
    (∀ (fuel : Nat) (ops : List Op) (w1 : World) (v : GoVal) (r : Int × Option Err)
      (w2 : World), (∀ u, Op.push u ∈ ops → u.wire.length ≤ 1) → v.wire.length ≤ 1 →
      rc.run fuel ops w = some w1 → rc.Push v fuel w1 = some (r, w2) →
      (chanLen w2.kv rc.ChannelName : Int) ≤ rc.MaxLen) ∧
    (w.kv rc.ChannelLockerName = none → w.reliable rc.ChannelLockerName →
      w.reliable rc.ChannelName →
      ∀ (fuel : Nat) (ops : List Op), ∃ w1, rc.run (fuel + 1) ops w = some w1) := by
  have h0 : (chanLen w.kv rc.ChannelName : Int) ≤ rc.MaxLen := by
    simp only [chanLen, hempty, Nat.cast_zero]
    omega
  refine ⟨?_, ?_, ?_⟩
  · intro fuel ops w1 hval h
    exact (run_len rc fuel ops hkeys hM w w1 hval hsingle h h0).1
  · intro fuel ops w1 v r w2 hval hv h hp
    obtain ⟨h1, hu1⟩ := run_len rc fuel ops hkeys hM w w1 hval hsingle h h0
    exact (Push_len rc v fuel w1 w2 r hkeys hM hv hu1 hp h1).1
  · intro hfree hrL hrC fuel ops
    exact run_quiet rc fuel ops w [] ⟨hkeys, hfree, hrL, hrC⟩ (by simpa [listVal] using hempty)

theorem unlock_releases (rc : rchan) (w : World) (h : w.reliable rc.ChannelLockerName) :
    (rc.unlock w).kv rc.ChannelLockerName = none := by
  rw [unlock_ok rc w (reliable_head _ _ h)]
  simp

/-- C8: the lock protocol. (1) Whenever lock returns, its last call is a
conditional set of the lock key that found the key absent and bound it, so the
key is present. (2) With the key absent and the call going through, lock
returns after a single attempt. (3) With the calls on the lock key going
through, acquire then unlock leaves the key absent, and a second acquire and
unlock succeeds in the same way. (4) While the key is present lock does not
return, however many attempts it is given and whatever the network does. -/
theorem lock_protocol (rc : rchan) (w : World) :
    (∀ (fuel : Nat) (w1 : World), rc.lock fuel w = some w1 →
      w.kv rc.ChannelLockerName = none ∧
      w1.kv rc.ChannelLockerName = some (RVal.str "1") ∧
      ∃ evs, w1.log = w.log ++ evs ++ [Event.setnx rc.ChannelLockerName]) ∧
    (w.kv rc.ChannelLockerName = none →
      (w.net rc.ChannelLockerName).headD Net.ok = Net.ok →
      ∀ fuel : Nat, ∃ w1, rc.lock (fuel + 1) w = some w1 ∧
        w1.log = w.log ++ [Event.setnx rc.ChannelLockerName] ∧
        w1.kv rc.ChannelLockerName = some (RVal.str "1")) ∧
    (w.kv rc.ChannelLockerName = none → w.reliable rc.ChannelLockerName →
      ∀ fuel : Nat, ∃ w1 w2, rc.lock (fuel + 1) w = some w1 ∧
        (rc.unlock w1).kv rc.ChannelLockerName = none ∧
        rc.lock (fuel + 1) (rc.unlock w1) = some w2 ∧
        (rc.unlock w2).kv rc.ChannelLockerName = none) ∧
    (w.kv rc.ChannelLockerName ≠ none → ∀ fuel : Nat, rc.lock fuel w = none) := by
  refine ⟨?_, ?_, ?_, ?_⟩
  · intro fuel w1 h
    obtain ⟨h0, hkv, hlog⟩ := lock_some rc fuel w w1 h
    exact ⟨h0, by rw [hkv]; simp, hlog⟩
  · intro hfree hn fuel
    exact ⟨_, lock_free rc fuel w hfree hn, rfl, by simp⟩
  · intro hfree hrL fuel
    have hl1 := lock_free rc fuel w hfree (reliable_head _ _ hrL)
    generalize hw1 : w.after (Event.setnx rc.ChannelLockerName) rc.ChannelLockerName
        (w.kv.set rc.ChannelLockerName (some (RVal.str "1"))) = w1 at hl1
    have h1 : w1.reliable rc.ChannelLockerName := by
      rw [← hw1]; exact after_reliable _ _ _ _ _ hrL
    have hu1 := unlock_releases rc w1 h1
    have h2 : (rc.unlock w1).reliable rc.ChannelLockerName := unlock_reliable _ _ _ h1
    have hl2 := lock_free rc fuel (rc.unlock w1) hu1 (reliable_head _ _ h2)
    refine ⟨w1, _, hl1, hu1, hl2, ?_⟩
    apply unlock_releases
    exact after_reliable _ _ _ _ _ h2
  · intro hheld fuel
    exact lock_held rc fuel w hheld

/-! ## The pause of `Pop` -/

theorem Pop_log (rc : rchan) (fuel : Nat) (w w1 : World) (val : String) (err : Option Err)
    (h : rc.Pop fuel w = some ((val, err), w1)) :
    ∃ evs, w1.log = w.log ++ evs ++
      ([Event.setnx rc.ChannelLockerName, Event.rpop rc.ChannelName] ++
        (if val = "" then [Event.sleep 100] else []) ++ [Event.del rc.ChannelLockerName]) := by
  unfold rchan.Pop at h
  cases hl : rc.lock fuel w with
  | none => rw [hl] at h; simp at h
  | some wl =>
    rw [hl] at h
    simp only [Option.some.injEq, Prod.mk.injEq] at h
    obtain ⟨⟨hv, _⟩, hw⟩ := h
    obtain ⟨_, _, evs, hlog⟩ := lock_some rc fuel w wl hl
    have hr : (RPop rc.ChannelName wl).2.log = wl.log ++ [Event.rpop rc.ChannelName] :=
      call_log _ _ _ _ _
    refine ⟨evs, ?_⟩
    rw [← hw, unlock_log, ← hv]
    by_cases hx : (RPop rc.ChannelName wl).1.1 = ""
    · simp only [hx, if_true, sleep_log, hr, hlog]
      simp
    · simp only [hx, if_false, hr, hlog]
      simp

/-- C10: Pop pauses exactly when the value it returns is the empty string. (1)
In any world, the calls of a Pop that returns end with the conditional set that
took the lock, the removal, a sleep of 100 ms exactly when the returned value is
the empty string, and the release. (2) When the element at the tail of a
non-empty channel is the empty string, Pop removes it, returns the empty string
with a nil error and still pauses. (3) When the removal call fails on the
network (never sent, or no reply to the last sending) Pop returns the empty
string with the error of the call and pauses. (4) On an empty channel
Pop returns the same value, the empty string, and differs only in the error, the
nil reply of the store. -/
theorem pop_pauses_iff_value_empty (rc : rchan) (fuel : Nat) (w : World)
    (hkeys : rc.ChannelName ≠ rc.ChannelLockerName)
    (hfree : w.kv rc.ChannelLockerName = none)
    (hrelL : w.reliable rc.ChannelLockerName) :
    (∀ (fuel1 : Nat) (w0 w1 : World) (val : String) (err : Option Err),
      rc.Pop fuel1 w0 = some ((val, err), w1) →
      ∃ evs, w1.log = w0.log ++ evs ++
        ([Event.setnx rc.ChannelLockerName, Event.rpop rc.ChannelName] ++
          (if val = "" then [Event.sleep 100] else []) ++
          [Event.del rc.ChannelLockerName])) ∧
    (∀ xs : List String, w.reliable rc.ChannelName →
      w.kv rc.ChannelName = listVal (xs ++ [""]) →
      ∃ w1, rc.Pop (fuel + 1) w = some (("", none), w1) ∧
        w1.kv rc.ChannelName = listVal xs ∧
        w1.log = w.log ++ [Event.setnx rc.ChannelLockerName, Event.rpop rc.ChannelName,
          Event.sleep 100, Event.del rc.ChannelLockerName]) ∧
    (((w.net rc.ChannelName).headD Net.ok).fails = true →
      ∃ w1, rc.Pop (fuel + 1) w = some (("", some Err.network), w1) ∧
        w1.log = w.log ++ [Event.setnx rc.ChannelLockerName, Event.rpop rc.ChannelName,
          Event.sleep 100, Event.del rc.ChannelLockerName]) ∧
    (w.reliable rc.ChannelName → w.kv rc.ChannelName = none →
      ∃ w1, rc.Pop (fuel + 1) w = some (("", some Err.redisNil), w1) ∧
        w1.log = w.log ++ [Event.setnx rc.ChannelLockerName, Event.rpop rc.ChannelName,
          Event.sleep 100, Event.del rc.ChannelLockerName]) := by
  refine ⟨?_, ?_, ?_, ?_⟩
  · intro fuel1 w0 w1 val err h
    exact Pop_log rc fuel1 w0 w1 val err h
  · intro xs hrelC hc
    obtain ⟨w1, hp, _, hkv, hlog⟩ := Pop_snoc rc fuel w xs "" ⟨hkeys, hfree, hrelL, hrelC⟩ hc
    exact ⟨w1, hp, by rw [hkv]; simp, by simpa using hlog⟩
  · intro hfail
    have hlock := lock_free rc fuel w hfree (reliable_head w _ hrelL)
    generalize hw1 : w.after (Event.setnx rc.ChannelLockerName) rc.ChannelLockerName
        (w.kv.set rc.ChannelLockerName (some (RVal.str "1"))) = w1 at hlock
    have hnet : w1.net rc.ChannelName = w.net rc.ChannelName := by
      rw [← hw1]; simp [World.after, hkeys]
    have hres : (RPop rc.ChannelName w1).1 = ("", some Err.network) :=
      call_failed _ _ _ _ _ (by rw [hnet]; exact hfail)
    have hrlog : (RPop rc.ChannelName w1).2.log = w1.log ++ [Event.rpop rc.ChannelName] :=
      call_log _ _ _ _ _
    have hval : (RPop rc.ChannelName w1).1.1 = "" := congrArg Prod.fst hres
    have herr : (RPop rc.ChannelName w1).1.2 = some Err.network := congrArg Prod.snd hres
    refine ⟨rc.unlock ((RPop rc.ChannelName w1).2.sleep 100), ?_, ?_⟩
    · unfold rchan.Pop
      rw [hlock]
      simp only [hval, herr, if_true]
    · rw [unlock_log, sleep_log, hrlog, ← hw1]
      simp
  · intro hrelC hc
    obtain ⟨w1, hp, _, _, hlog⟩ := Pop_empty rc fuel w ⟨hkeys, hfree, hrelL, hrelC⟩ hc
    exact ⟨w1, hp, hlog⟩

/-! ## Several callers pushing at once -/

@[simp] theorem goto_same (s : Conc) (t : Nat) (p : Pc) : s.goto t p t = p := by
  simp [Conc.goto]

theorem goto_other (s : Conc) (t k : Nat) (p : Pc) (h : k ≠ t) : s.goto t p k = s.pc k := by
  simp [Conc.goto, h]

theorem srvSetNX_other (key value : String) (kv : KV) (k : String) (hk : k ≠ key) :
    (srvSetNX key value kv).2 k = kv k := by
  unfold srvSetNX
  split
  · simp [hk]
  · rfl

theorem srvLPush_mono (key : String) (vals : List String) (kv : KV) :
    chanLen kv key ≤ chanLen (srvLPush key vals kv).2 key := by
  unfold srvLPush
  split
  · exact le_refl _
  · split
    · rename_i h
      simp [chanLen, h]
    · rename_i xs h
      simp [chanLen, h]
      omega
    · exact le_refl _

theorem srvLPush_grows (key : String) (vals : List String) (kv : KV)
    (h : (srvLPush key vals kv).1.2 = none) :
    vals ≠ [] ∧ chanLen (srvLPush key vals kv).2 key = chanLen kv key + vals.length := by
  unfold srvLPush at h ⊢
  split
  · simp at h
  · split
    · rename_i h1
      simp [chanLen, h1]
    · rename_i xs h1
      simp [chanLen, h1]
      omega
    · rename_i h1
      simp [h1] at h

theorem LPush_other (key : String) (val : GoVal) (w : World) (k : String) (hk : k ≠ key) :
    (LPush key val w).2.kv k = w.kv k :=
  call_kv w _ key 0 (srvLPush key val.wire) (fun kv => kv k = w.kv k)
    (fun kv h => (srvLPush_other key val.wire kv k hk).trans h) rfl

theorem LPush_mono (key : String) (val : GoVal) (w : World) :
    chanLen w.kv key ≤ chanLen (LPush key val w).2.kv key :=
  call_kv w _ key 0 (srvLPush key val.wire) (fun kv => chanLen w.kv key ≤ chanLen kv key)
    (fun kv h => le_trans h (srvLPush_mono key val.wire kv)) (le_refl _)

/-- An `LPUSH` of one element that the store executes at most once and that
comes back with a nil error has added exactly one element. -/
theorem LPush_grows (key : String) (val : GoVal) (w : World)
    (hs : ((w.net key).headD Net.ok).single = true) (hv : val.wire.length ≤ 1)
    (h : (LPush key val w).1.2 = none) :
    chanLen (LPush key val w).2.kv key = chanLen w.kv key + 1 := by
  unfold LPush at h ⊢
  rcases call_single w (Event.lpush key val.wire) key 0 (srvLPush key val.wire) hs with
    h1 | h1 | h1
  · rw [h1] at h ⊢
    obtain ⟨hne, hg⟩ := srvLPush_grows key val.wire w.kv h
    have : val.wire.length = 1 := by
      cases hw : val.wire with
      | nil => exact absurd hw hne
      | cons a t =>
        rw [hw] at hv
        simp only [List.length_cons] at hv ⊢
        omega
    rw [← this]
    exact hg
  · rw [h1] at h; simp at h
  · rw [h1] at h; simp at h

theorem SetNX_other (key value : String) (w : World) (k : String) (hk : k ≠ key) :
    (SetNX key value w).2.kv k = w.kv k :=
  call_kv w _ key false (srvSetNX key value) (fun kv => kv k = w.kv k)
    (fun kv h => (srvSetNX_other key value kv k hk).trans h) rfl

theorem small_goto (rc : rchan) (s : Conc) (hs : Safe rc s) (t : Nat) (p : Pc)
    (hp : ∀ val, p = Pc.lock val ∨ p = Pc.llen val ∨ p = Pc.lpush val →
      val.wire.length ≤ 1) :
    ∀ k val, (s.goto t p) k = Pc.lock val ∨ (s.goto t p) k = Pc.llen val ∨
      (s.goto t p) k = Pc.lpush val → val.wire.length ≤ 1 := by
  intro k val h
  by_cases hk : k = t
  · subst hk
    rw [goto_same] at h
    exact hp val h
  · rw [goto_other _ _ _ _ hk] at h
    exact hs.small k val h

theorem safe_same_pc (rc : rchan) (s : Conc) (kv1 : KV) (hs : Safe rc s)
    (hC : kv1 rc.ChannelName = s.kv rc.ChannelName)
    (hL : s.kv rc.ChannelLockerName ≠ none → kv1 rc.ChannelLockerName ≠ none) :
    Safe rc { kv := kv1, pc := s.pc, accepted := s.accepted } := by
  have hlen : chanLen kv1 rc.ChannelName = chanLen s.kv rc.ChannelName :=
    chanLen_congr _ _ _ hC
  refine ⟨hs.mutex, fun t ht => hL (hs.held t ht), ?_, ?_, ?_, ?_, hs.small⟩
  · simp only [hlen]; exact hs.cap
  · intro t val h; simp only [hlen]; exact hs.room t val h
  · simp only [hlen]; exact hs.count
  · intro t n h; simp only [hlen]; exact hs.pending t n h

theorem safe_enter (rc : rchan) (s : Conc) (t : Nat) (val : GoVal) (hs : Safe rc s)
    (hval : val.wire.length ≤ 1) :
    Safe rc { kv := s.kv, pc := s.goto t (Pc.lock val), accepted := s.accepted } := by
  have hold : ∀ k, ((s.goto t (Pc.lock val)) k).holds = true →
      k ≠ t ∧ (s.pc k).holds = true := by
    intro k hk
    by_cases h : k = t
    · subst h; simp [Pc.holds] at hk
    · rw [goto_other _ _ _ _ h] at hk; exact ⟨h, hk⟩
  have hpc : ∀ k q, (s.goto t (Pc.lock val)) k = q → q.holds = true → s.pc k = q := by
    intro k q hq hh
    by_cases h : k = t
    · subst h; rw [goto_same] at hq; subst hq; simp [Pc.holds] at hh
    · rw [goto_other _ _ _ _ h] at hq; exact hq
  refine ⟨?_, ?_, hs.cap, ?_, hs.count, ?_, ?_⟩
  · intro t1 t2 h1 h2
    exact hs.mutex t1 t2 (hold t1 h1).2 (hold t2 h2).2
  · intro k hk
    exact hs.held k (hold k hk).2
  · intro k v h
    exact hs.room k v (hpc k _ h rfl)
  · intro k n h
    exact hs.pending k n (hpc k _ h rfl)
  · apply small_goto rc s hs
    intro v hv
    rcases hv with hv | hv | hv
    · cases hv; exact hval
    · cases hv
    · cases hv

theorem safe_acquire (rc : rchan) (s : Conc) (t : Nat) (val : GoVal) (kv1 : KV)
    (hs : Safe rc s) (hp : s.pc t = Pc.lock val)
    (hfree : s.kv rc.ChannelLockerName = none)
    (hC : kv1 rc.ChannelName = s.kv rc.ChannelName)
    (hL : kv1 rc.ChannelLockerName ≠ none) :
    Safe rc { kv := kv1, pc := s.goto t (Pc.llen val), accepted := s.accepted } := by
  have hlen : chanLen kv1 rc.ChannelName = chanLen s.kv rc.ChannelName :=
    chanLen_congr _ _ _ hC
  have nobody : ∀ k, (s.pc k).holds = true → False := fun k hk => hs.held k hk hfree
  have only : ∀ k, ((s.goto t (Pc.llen val)) k).holds = true → k = t := by
    intro k hk
    by_contra h
    rw [goto_other _ _ _ _ h] at hk
    exact nobody k hk
  have notyet : ∀ k q, (s.goto t (Pc.llen val)) k = q → q.holds = true → q = Pc.llen val := by
    intro k q hq hh
    have := only k (by rw [hq]; exact hh)
    subst this
    rw [goto_same] at hq
    exact hq.symm
  refine ⟨?_, fun _ _ => hL, ?_, ?_, ?_, ?_, ?_⟩
  · intro t1 t2 h1 h2
    rw [only t1 h1, only t2 h2]
  · simp only [hlen]; exact hs.cap
  · intro k v h
    have := notyet k _ h rfl
    cases this
  · simp only [hlen]; exact hs.count
  · intro k n h
    have := notyet k _ h rfl
    cases this
  · apply small_goto rc s hs
    intro v hv
    rcases hv with hv | hv | hv
    · cases hv
    · cases hv; exact hs.small t val (Or.inl hp)
    · cases hv

theorem safe_move (rc : rchan) (s : Conc) (t : Nat) (p : Pc) (kv1 : KV) (hs : Safe rc s)
    (ht : (s.pc t).holds = true)
    (hL : kv1 rc.ChannelLockerName ≠ none)
    (hcap : (chanLen kv1 rc.ChannelName : Int) ≤ rc.MaxLen)
    (hroom : ∀ val, p = Pc.lpush val → (chanLen kv1 rc.ChannelName : Int) < rc.MaxLen)
    (hcount : s.accepted ≤ chanLen kv1 rc.ChannelName)
    (hpend : ∀ n, p = Pc.unlock (n, none) → s.accepted + 1 ≤ chanLen kv1 rc.ChannelName)
    (hsmall : ∀ val, p = Pc.lock val ∨ p = Pc.llen val ∨ p = Pc.lpush val →
      val.wire.length ≤ 1) :
    Safe rc { kv := kv1, pc := s.goto t p, accepted := s.accepted } := by
  have only : ∀ k, ((s.goto t p) k).holds = true → k = t := by
    intro k hk
    by_contra h
    rw [goto_other _ _ _ _ h] at hk
    exact h (hs.mutex k t hk ht)
  have at_p : ∀ k q, (s.goto t p) k = q → q.holds = true → q = p := by
    intro k q hq hh
    have := only k (by rw [hq]; exact hh)
    subst this
    rw [goto_same] at hq
    exact hq.symm
  refine ⟨?_, fun _ _ => hL, hcap, ?_, hcount, ?_, small_goto rc s hs t p hsmall⟩
  · intro t1 t2 h1 h2
    rw [only t1 h1, only t2 h2]
  · intro k v h
    exact hroom v (at_p k _ h rfl).symm
  · intro k n h
    exact hpend n (at_p k _ h rfl).symm

theorem safe_leave (rc : rchan) (s : Conc) (t : Nat) (r : Int × Option Err) (kv1 : KV)
    (hs : Safe rc s) (ht : s.pc t = Pc.unlock r)
    (hC : kv1 rc.ChannelName = s.kv rc.ChannelName) :
    Safe rc { kv := kv1, pc := s.goto t Pc.idle,
              accepted := if r.2 = none then s.accepted + 1 else s.accepted } := by
  have hlen : chanLen kv1 rc.ChannelName = chanLen s.kv rc.ChannelName :=
    chanLen_congr _ _ _ hC
  have hth : (s.pc t).holds = true := by rw [ht]; rfl
  have nobody : ∀ k, ((s.goto t Pc.idle) k).holds = true → False := by
    intro k hk
    by_cases h : k = t
    · subst h; simp [Pc.holds] at hk
    · rw [goto_other _ _ _ _ h] at hk
      exact h (hs.mutex k t hk hth)
  refine ⟨?_, ?_, ?_, ?_, ?_, ?_, ?_⟩
  · intro t1 _ h1 _
    exact (nobody t1 h1).elim
  · intro k hk
    exact (nobody k hk).elim
  · simp only [hlen]; exact hs.cap
  · intro k v h
    have h1 : (s.goto t Pc.idle) k = Pc.lpush v := h
    exact (nobody k (by rw [h1]; rfl)).elim
  · simp only [hlen]
    obtain ⟨n, e⟩ := r
    cases e with
    | none => simpa using hs.pending t n ht
    | some e => simpa using hs.count
  · intro k n h
    have h1 : (s.goto t Pc.idle) k = Pc.unlock (n, none) := h
    exact (nobody k (by rw [h1]; rfl)).elim
  · apply small_goto rc s hs
    intro v hv
    rcases hv with hv | hv | hv <;> cases hv

theorem safe_expire (rc : rchan) (s : Conc) (hs : Safe rc s)
    (hkeys : rc.ChannelName ≠ rc.ChannelLockerName)
    (hno : ∀ t, (s.pc t).holds = false) :
    Safe rc { kv := s.kv.set rc.ChannelLockerName none, pc := s.pc,
              accepted := s.accepted } := by
  have hlen : chanLen (s.kv.set rc.ChannelLockerName none) rc.ChannelName =
      chanLen s.kv rc.ChannelName :=
    chanLen_congr _ _ _ (by simp [hkeys])
  have nobody : ∀ k, (s.pc k).holds = true → False := by
    intro k hk
    rw [hno k] at hk
    cases hk
  refine ⟨hs.mutex, fun k hk => (nobody k hk).elim, ?_, ?_, ?_, ?_, hs.small⟩
  · simp only [hlen]; exact hs.cap
  · intro t val h; simp only [hlen]; exact hs.room t val h
  · simp only [hlen]; exact hs.count
  · intro t n h; simp only [hlen]; exact hs.pending t n h

theorem next_safe (rc : rchan) (s : Conc) (e : Ev)
    (hkeys : rc.ChannelName ≠ rc.ChannelLockerName) (hM : 0 < rc.MaxLen)
    (hs : Safe rc s) (hexp : e = Ev.expire → ∀ t, (s.pc t).holds = false)
    (hone : ∀ t o val, e = Ev.step t o → s.pc t = Pc.lpush val → o.single = true)
    (hval : ∀ t val, e = Ev.call t val → val.wire.length ≤ 1) :
    Safe rc (rc.next s e) := by
  cases e with
  | call t val =>
    simp only [rchan.next]
    split
    · exact safe_enter rc s t val hs (hval t val rfl)
    · exact hs
  | expire =>
    simp only [rchan.next]
    exact safe_expire rc s hs hkeys (hexp rfl)
  | step t o =>
    simp only [rchan.next]
    split
    · exact hs
    · -- in the loop of lock
      rename_i val hp
      have hC := SetNX_other rc.ChannelLockerName "1" (World.once s.kv o) rc.ChannelName hkeys
      split
      · rename_i hsucc
        have := SetNX_success rc.ChannelLockerName "1" (World.once s.kv o) hsucc
        refine safe_acquire rc s t val _ hs hp this.1 hC ?_
        rw [this.2]
        simp
      · apply safe_same_pc rc s _ hs hC
        intro hL
        exact SetNX_keeps rc.ChannelLockerName "1" (World.once s.kv o) hL
    · -- lock held, asking for the length
      rename_i val hp
      have hth : (s.pc t).holds = true := by rw [hp]; rfl
      have hkv := LLen_kv rc.ChannelName (World.once s.kv o)
      split
      · rename_i l err w2 heq
        have hk2 : w2.kv = s.kv := by rw [heq] at hkv; exact hkv
        rw [hk2]
        exact safe_move rc s t _ s.kv hs hth (hs.held t hth) hs.cap
          (by intro v hv; cases hv) hs.count (by intro n hn; cases hn)
          (by intro v hv; rcases hv with hv | hv | hv <;> cases hv)
      · rename_i l w2 heq
        have hk2 : w2.kv = s.kv := by rw [heq] at hkv; exact hkv
        have hl := LLen_len rc.ChannelName (World.once s.kv o) l (by rw [heq])
        rw [hk2]
        split
        · exact safe_move rc s t _ s.kv hs hth (hs.held t hth) hs.cap
            (by intro v hv; cases hv) hs.count (by intro n hn; cases hn)
            (by intro v hv; rcases hv with hv | hv | hv <;> cases hv)
        · rename_i hnot
          refine safe_move rc s t _ s.kv hs hth (hs.held t hth) hs.cap ?_ hs.count
            (by intro n hn; cases hn) ?_
          · intro _ _
            have hl1 : l = (chanLen s.kv rc.ChannelName : Int) := hl
            by_contra hc
            exact hnot ⟨hM, by omega⟩
          · intro v hv
            rcases hv with hv | hv | hv
            · cases hv
            · cases hv
            · cases hv
              exact hs.small t val (Or.inr (Or.inl hp))
    · -- length checked, inserting
      rename_i val hp
      have hth : (s.pc t).holds = true := by rw [hp]; rfl
      have hroom := hs.room t val hp
      have hv1 := hs.small t val (Or.inr (Or.inr hp))
      have hsingle : (((World.once s.kv o).net rc.ChannelName).headD Net.ok).single = true :=
        hone t o val rfl hp
      have hle := LPush_len rc.ChannelName val (World.once s.kv o) hsingle
      have hmono := LPush_mono rc.ChannelName val (World.once s.kv o)
      have hgrow := LPush_grows rc.ChannelName val (World.once s.kv o) hsingle hv1
      have hoth := LPush_other rc.ChannelName val (World.once s.kv o) rc.ChannelLockerName
        (Ne.symm hkeys)
      generalize LPush rc.ChannelName val (World.once s.kv o) = res at hle hmono hgrow hoth ⊢
      have hle1 : chanLen res.2.kv rc.ChannelName ≤
          chanLen s.kv rc.ChannelName + val.wire.length := hle
      have hmono1 : chanLen s.kv rc.ChannelName ≤ chanLen res.2.kv rc.ChannelName := hmono
      have hcount := hs.count
      refine safe_move rc s t _ res.2.kv hs hth ?_ (by omega) (by intro v hv; cases hv)
        (by omega) ?_ (by intro v hv; rcases hv with hv | hv | hv <;> cases hv)
      · have : res.2.kv rc.ChannelLockerName = s.kv rc.ChannelLockerName := hoth
        rw [this]
        exact hs.held t hth
      · intro n hn
        have hn1 : res.1 = (n, none) := Pc.unlock.inj hn
        have : chanLen res.2.kv rc.ChannelName = chanLen s.kv rc.ChannelName + 1 :=
          hgrow (by rw [hn1])
        omega
    · -- body finished, releasing
      rename_i r hp
      apply safe_leave rc s t r _ hs hp
      exact unlock_kv_other rc (World.once s.kv o) rc.ChannelName hkeys

theorem sched_safe (rc : rchan) (evs : List Ev)
    (hkeys : rc.ChannelName ≠ rc.ChannelLockerName) (hM : 0 < rc.MaxLen) :
    ∀ s : Conc, Safe rc s → rc.timely evs s → singleSteps evs → oneElement evs →
      Safe rc (rc.sched evs s) := by
  induction evs with
  | nil => intro s hs _ _ _; exact hs
  | cons e es ih =>
    intro s hs ht hu ho
    simp only [rchan.sched]
    simp only [rchan.timely] at ht
    refine ih (rc.next s e) (next_safe rc s e hkeys hM hs ht.1 ?_ ?_) ht.2 ?_ ?_
    · intro t o _ he _
      exact hu t o (by simp [he])
    · intro t val he
      exact ho t val (by simp [he])
    · intro t o hm
      exact hu t o (by simp [hm])
    · intro t val hm
      exact ho t val (by simp [hm])

theorem init_safe (rc : rchan) (hM : 0 < rc.MaxLen) : Safe rc Conc.init := by
  refine ⟨?_, ?_, ?_, ?_, ?_, ?_, ?_⟩
  · intro t1 _ h; simp [Conc.init, Pc.holds] at h
  · intro t h; simp [Conc.init, Pc.holds] at h
  · simp only [Conc.init, chanLen, Nat.cast_zero]; omega
  · intro t v h; simp [Conc.init] at h
  · simp [Conc.init, chanLen]
  · intro t n h; simp [Conc.init] at h
  · intro t v h; simp [Conc.init] at h

theorem once_reliable (kv : KV) (k : String) : (World.once kv Net.ok).reliable k := by
  intro o h
  simpa [World.once] using h

theorem LLen_once (key : String) (kv : KV) :
    LLen key (World.once kv Net.ok) =
      ((srvLLen key kv).1, (World.once kv Net.ok).after (Event.llen key) key (srvLLen key kv).2) :=
  call_ok _ _ _ _ _ (reliable_head _ _ (once_reliable kv key))

theorem LPush_once (key : String) (val : GoVal) (kv : KV) :
    LPush key val (World.once kv Net.ok) =
      ((srvLPush key val.wire kv).1,
        (World.once kv Net.ok).after (Event.lpush key val.wire) key
          (srvLPush key val.wire kv).2) :=
  call_ok _ _ _ _ _ (reliable_head _ _ (once_reliable kv key))

theorem SetNX_once (key val : String) (kv : KV) :
    SetNX key val (World.once kv Net.ok) =
      ((srvSetNX key val kv).1,
        (World.once kv Net.ok).after (Event.setnx key) key (srvSetNX key val kv).2) :=
  call_ok _ _ _ _ _ (reliable_head _ _ (once_reliable kv key))

theorem unlock_once (rc : rchan) (kv : KV) :
    (rc.unlock (World.once kv Net.ok)).kv = kv.set rc.ChannelLockerName none := by
  rw [unlock_ok _ _ (reliable_head _ _ (once_reliable kv _))]
  rfl

theorem unlock_reliable_kv (rc : rchan) (w : World) (h : w.reliable rc.ChannelLockerName) :
    (rc.unlock w).kv = w.kv.set rc.ChannelLockerName none := by
  rw [unlock_ok _ _ (reliable_head _ _ h)]
  rfl

/-- A caller that runs alone through `Push` in the interleaving model, every
call going through, ends with the store and the reply of `rchan.Push`. -/
theorem solo_push_matches_Push (rc : rchan) (s : Conc) (t : Nat) (v : GoVal)
    (hidle : s.pc t = Pc.idle) (hfree : s.kv rc.ChannelLockerName = none) :
    ∃ r w1, rc.Push v 1 (World.once s.kv Net.ok) = some (r, w1) ∧
      (rc.sched (Ev.call t v :: List.replicate 4 (Ev.step t Net.ok)) s).kv = w1.kv ∧
      (rc.sched (Ev.call t v :: List.replicate 4 (Ev.step t Net.ok)) s).pc t = Pc.idle ∧
      (rc.sched (Ev.call t v :: List.replicate 4 (Ev.step t Net.ok)) s).accepted =
        if r.2 = none then s.accepted + 1 else s.accepted := by
  have hlock := lock_free rc 0 (World.once s.kv Net.ok) hfree
    (reliable_head _ _ (once_reliable _ _))
  generalize hw1 : (World.once s.kv Net.ok).after (Event.setnx rc.ChannelLockerName)
    rc.ChannelLockerName ((World.once s.kv Net.ok).kv.set rc.ChannelLockerName
      (some (RVal.str "1"))) = w1 at hlock
  have hr1 : ∀ k, w1.reliable k := by
    intro k; rw [← hw1]; exact after_reliable _ _ _ _ _ (once_reliable _ _)
  have hkv1 : w1.kv = s.kv.set rc.ChannelLockerName (some (RVal.str "1")) := by
    rw [← hw1]; rfl
  generalize hk1 : s.kv.set rc.ChannelLockerName (some (RVal.str "1")) = kv1 at hkv1
  have hsrv : srvSetNX rc.ChannelLockerName "1" s.kv = ((true, none), kv1) := by
    simp [srvSetNX, hfree, hk1]
  have hseqL : LLen rc.ChannelName w1 =
      ((srvLLen rc.ChannelName kv1).1,
        w1.after (Event.llen rc.ChannelName) rc.ChannelName (srvLLen rc.ChannelName kv1).2) := by
    unfold LLen
    rw [call_ok _ _ _ _ _ (reliable_head _ _ (hr1 _)), hkv1]
  have hkv2 := srvLLen_kv rc.ChannelName kv1
  -- the five events of the schedule, one after the other
  have e0 : rc.next s (Ev.call t v) =
      { kv := s.kv, pc := s.goto t (Pc.lock v), accepted := s.accepted } := by
    simp only [rchan.next, hidle]
  generalize hs0 : ({ kv := s.kv, pc := s.goto t (Pc.lock v), accepted := s.accepted } : Conc)
    = s0 at e0
  have p0 : s0.pc t = Pc.lock v := by rw [← hs0]; simp
  have e1 : rc.next s0 (Ev.step t Net.ok) =
      { kv := kv1, pc := s0.goto t (Pc.llen v), accepted := s.accepted } := by
    have hk : s0.kv = s.kv := by rw [← hs0]
    have ha : s0.accepted = s.accepted := by rw [← hs0]
    simp only [rchan.next, p0, hk, ha, SetNX_once, hsrv, if_true, after_kv]
  generalize hs1 : ({ kv := kv1, pc := s0.goto t (Pc.llen v), accepted := s.accepted } : Conc)
    = s1 at e1
  have p1 : s1.pc t = Pc.llen v := by rw [← hs1]; simp
  have k1 : s1.kv = kv1 := by rw [← hs1]
  have a1 : s1.accepted = s.accepted := by rw [← hs1]
  simp only [rchan.sched, List.replicate, e0, e1]
  have hw2r : ∀ k, (w1.after (Event.llen rc.ChannelName) rc.ChannelName
      (srvLLen rc.ChannelName kv1).2).reliable k :=
    fun k => after_reliable _ _ _ _ _ (hr1 k)
  rcases hres : srvLLen rc.ChannelName kv1 with ⟨⟨l, e⟩, kv2⟩
  rw [hres] at hkv2 hseqL hw2r
  simp only at hkv2 hseqL hw2r
  subst hkv2
  have short : ∀ r : Int × Option Err, r.2 ≠ none →
      rc.next s1 (Ev.step t Net.ok) =
        { kv := kv2, pc := s1.goto t (Pc.unlock r), accepted := s.accepted } →
      (rc.next (rc.next (rc.next s1 (Ev.step t Net.ok)) (Ev.step t Net.ok))
          (Ev.step t Net.ok)).kv = kv2.set rc.ChannelLockerName none ∧
      (rc.next (rc.next (rc.next s1 (Ev.step t Net.ok)) (Ev.step t Net.ok))
          (Ev.step t Net.ok)).pc t = Pc.idle ∧
      (rc.next (rc.next (rc.next s1 (Ev.step t Net.ok)) (Ev.step t Net.ok))
          (Ev.step t Net.ok)).accepted = s.accepted := by
    intro r hr e2
    rw [e2]
    have e3 : rc.next { kv := kv2, pc := s1.goto t (Pc.unlock r), accepted := s.accepted }
        (Ev.step t Net.ok) =
        { kv := kv2.set rc.ChannelLockerName none,
          pc := Conc.goto { kv := kv2, pc := s1.goto t (Pc.unlock r), accepted := s.accepted }
            t Pc.idle,
          accepted := s.accepted } := by
      simp only [rchan.next, goto_same, unlock_once, hr, if_false]
    rw [e3]
    simp only [rchan.next, goto_same]
    exact ⟨trivial, trivial, trivial⟩
  cases e with
  | some err =>
    have e2 : rc.next s1 (Ev.step t Net.ok) =
        { kv := kv2, pc := s1.goto t (Pc.unlock (0, some err)), accepted := s.accepted } := by
      simp only [rchan.next, p1, k1, a1, LLen_once, hres, after_kv]
    obtain ⟨h1, h2, h3⟩ := short (0, some err) (by simp) e2
    refine ⟨(0, some err), (rc.unlock (w1.after (Event.llen rc.ChannelName) rc.ChannelName kv2)), ?_, ?_, h2, by simpa using h3⟩
    · simp only [rchan.Push, hlock, hseqL]
    · rw [h1, unlock_reliable_kv _ _ (hw2r _)]
      rfl
  | none =>
    by_cases hfull : rc.MaxLen > 0 ∧ l ≥ rc.MaxLen
    · have e2 : rc.next s1 (Ev.step t Net.ok) =
          { kv := kv2, pc := s1.goto t (Pc.unlock (0, some Err.channelFull)),
            accepted := s.accepted } := by
        simp only [rchan.next, p1, k1, a1, LLen_once, hres, after_kv, hfull, and_self, if_true]
      obtain ⟨h1, h2, h3⟩ := short (0, some Err.channelFull) (by simp) e2
      refine ⟨(0, some Err.channelFull), (rc.unlock (w1.after (Event.llen rc.ChannelName) rc.ChannelName kv2)),
        ?_, ?_, h2, by simpa using h3⟩
      · simp only [rchan.Push, hlock, hseqL, hfull, and_self, if_true]
      · rw [h1, unlock_reliable_kv _ _ (hw2r _)]
        rfl
    · have e2 : rc.next s1 (Ev.step t Net.ok) =
          { kv := kv2, pc := s1.goto t (Pc.lpush v), accepted := s.accepted } := by
        simp only [rchan.next, p1, k1, a1, LLen_once, hres, after_kv, hfull, if_false]
      have hseqP : LPush rc.ChannelName v (w1.after (Event.llen rc.ChannelName)
          rc.ChannelName kv2) =
          ((srvLPush rc.ChannelName v.wire kv2).1,
            (w1.after (Event.llen rc.ChannelName) rc.ChannelName kv2).after
              (Event.lpush rc.ChannelName v.wire) rc.ChannelName
              (srvLPush rc.ChannelName v.wire kv2).2) := by
        unfold LPush
        rw [call_ok _ _ _ _ _ (reliable_head _ _ (hw2r _))]
        rfl
      have e3 : rc.next { kv := kv2, pc := s1.goto t (Pc.lpush v), accepted := s.accepted }
          (Ev.step t Net.ok) =
          { kv := (srvLPush rc.ChannelName v.wire kv2).2,
            pc := Conc.goto { kv := kv2, pc := s1.goto t (Pc.lpush v), accepted := s.accepted }
              t (Pc.unlock (srvLPush rc.ChannelName v.wire kv2).1),
            accepted := s.accepted } := by
        simp only [rchan.next, goto_same, LPush_once, after_kv]
      rw [e2, e3]
      refine ⟨(srvLPush rc.ChannelName v.wire kv2).1,
        rc.unlock ((w1.after (Event.llen rc.ChannelName) rc.ChannelName kv2).after
          (Event.lpush rc.ChannelName v.wire) rc.ChannelName (srvLPush rc.ChannelName v.wire kv2).2),
        ?_, ?_, ?_, ?_⟩
      · simp only [rchan.Push, hlock, hseqL, hfull, if_false, hseqP]
      · simp only [rchan.next, goto_same, unlock_once]
        rw [unlock_reliable_kv _ _ (after_reliable _ _ _ _ _ (hw2r _))]
        rfl
      · simp only [rchan.next, goto_same]
      · simp only [rchan.next, goto_same]

/-- C9 as stated fails, in three ways, each with maximum length 1. (1) Once the
lock key of caller 0 has expired between its length check and its insert,
caller 1 takes the lock too, both callers stand between length check and insert
at the same time, and when both have returned the channel holds 2 elements and
2 pushes were accepted. (2) A single Push of the slice `[]string{"a", "b"}`
leaves 2 elements. (3) A single Push of "a" leaves 2 elements when the
connection breaks after the store has executed its `LPUSH` and the client sends
the command again. -/
theorem concurrent_pushes_can_exceed_MaxLen :
    overlapChan.MaxLen = 1 ∧
    (overlapChan.sched overlapStart Conc.init).pc 0 = Pc.lpush (GoVal.str "a") ∧
    (overlapChan.sched overlapStart Conc.init).pc 1 = Pc.lpush (GoVal.str "b") ∧
    chanLen (overlapChan.sched (overlapStart ++ overlapEnd) Conc.init).kv
      overlapChan.ChannelName = 2 ∧
    (overlapChan.sched (overlapStart ++ overlapEnd) Conc.init).accepted = 2 ∧
    chanLen (overlapChan.sched sliceSched Conc.init).kv overlapChan.ChannelName = 2 ∧
    chanLen (overlapChan.sched resendSched Conc.init).kv overlapChan.ChannelName = 2 := by
  decide

/-- C9, amended: with a maximum length M > 0 and distinct channel and lock keys,
for any number of callers pushing at once from an empty channel, in any
interleaving of their store calls and whatever the network does with each call,
as long as (a) the lock key does not expire while a caller holds the lock, (b)
every pushed value is one that the client writes as at most one list element,
and (c) the client sends no command a second time: at most one caller is
between the return of lock and its unlock, so no two length-check-then-insert
sequences overlap, the channel never holds more than M elements, and the pushes
that returned a nil error are never more than M. -/
theorem concurrent_pushes_respect_MaxLen (rc : rchan) (evs : List Ev)
    (hkeys : rc.ChannelName ≠ rc.ChannelLockerName) (hM : 0 < rc.MaxLen)
    (htimely : rc.timely evs Conc.init)
    (hone : oneElement evs)
    (hsingle : singleSteps evs) :
    (∀ t1 t2, ((rc.sched evs Conc.init).pc t1).holds = true →
      ((rc.sched evs Conc.init).pc t2).holds = true → t1 = t2) ∧
    (chanLen (rc.sched evs Conc.init).kv rc.ChannelName : Int) ≤ rc.MaxLen ∧
    ((rc.sched evs Conc.init).accepted : Int) ≤ rc.MaxLen := by
  have hs := sched_safe rc evs hkeys hM Conc.init (init_safe rc hM) htimely hsingle hone
  refine ⟨hs.mutex, hs.cap, ?_⟩
  have h1 := hs.count
  have h2 := hs.cap
  omega

/-- C9, amended, on the orderly schedule of two callers with maximum length 1. -/
theorem concurrent_pushes_respect_MaxLen_witness :
    (∀ t1 t2, ((overlapChan.sched orderlySched Conc.init).pc t1).holds = true →
      ((overlapChan.sched orderlySched Conc.init).pc t2).holds = true → t1 = t2) ∧
    (chanLen (overlapChan.sched orderlySched Conc.init).kv overlapChan.ChannelName : Int) ≤
      overlapChan.MaxLen ∧
    ((overlapChan.sched orderlySched Conc.init).accepted : Int) ≤ overlapChan.MaxLen :=
  concurrent_pushes_respect_MaxLen overlapChan orderlySched (by decide) (by decide)
    (by
      refine ⟨fun _ _ => rfl, ?_⟩
      simp [rchan.timely])
    (by
      have H : ∀ e ∈ orderlySched,
          (match e with
            | Ev.call _ val => decide (val.wire.length ≤ 1)
            | _ => true) = true := by decide
      intro t val h
      simpa using H (Ev.call t val) h)
    (by
      have H : ∀ e ∈ orderlySched,
          (match e with
            | Ev.step _ o => o.single
            | _ => true) = true := by decide
      intro t o h
      exact H (Ev.step t o) h)

/-! ## The theorems at concrete inputs -/

theorem demoWorld_reliable (xs : List String) (k : String) : (demoWorld xs).reliable k := by
  intro o h
  simp [demoWorld] at h

theorem lossyWorld_reliable (xs : List String) :
    (lossyWorld xs).reliable defaultChannelLockerName := by
  intro o h
  have hne : defaultChannelLockerName ≠ defaultChannelName := by decide
  simp [lossyWorld, hne] at h

theorem demo_values_single :
    ∀ v ∈ [GoVal.str "a", GoVal.int 7], ∃ s, v.wire = [s] := by
  intro v hv
  simp only [List.mem_cons, List.mem_singleton, List.not_mem_nil, or_false] at hv
  rcases hv with h | h <;> subst h <;> exact ⟨_, rfl⟩

/-- C1, amended, on the handle of `TestXxx`: a string and an integer pushed onto
the empty default channel are accepted, the third value, whatever it is, is
refused. -/
theorem push_beyond_MaxLen_is_refused_witness :
    ∃ w1 w2,
      demoChan.pushAll (0 + 1) [GoVal.str "a", GoVal.int 7] (demoWorld []) =
        some (pushReplies 0 [GoVal.str "a", GoVal.int 7].length, w1) ∧
      (∀ r ∈ pushReplies 0 [GoVal.str "a", GoVal.int 7].length, r.2 = none) ∧
      w1.kv demoChan.ChannelName =
        listVal ([GoVal.str "a", GoVal.int 7].flatMap GoVal.wire).reverse ∧
      demoChan.Push (GoVal.strs ["x", "y"]) (0 + 1) w1 =
        some ((0, some Err.channelFull), w2) ∧
      w2.kv = w1.kv ∧
      w2.kv demoChan.ChannelName =
        listVal ([GoVal.str "a", GoVal.int 7].flatMap GoVal.wire).reverse ∧
      ((chanLen w2.kv demoChan.ChannelName : Nat) : Int) = demoChan.MaxLen :=
  push_beyond_MaxLen_is_refused demoChan 0 (demoWorld []) [GoVal.str "a", GoVal.int 7]
    (GoVal.strs ["x", "y"]) demo_values_single
    (by decide) (by decide) (by decide) (by decide) (by decide)
    (demoWorld_reliable [] _) (demoWorld_reliable [] _)

/-- C2, amended, on the handle of `TestXxx`: "a" and the integer 7 come back in
that order, as the strings written for them. -/
theorem pop_returns_pushed_values_in_order_witness :
    (∃ w1 w2,
      demoChan.pushAll (0 + 1) [GoVal.str "a", GoVal.int 7] (demoWorld []) =
        some (pushReplies 0 [GoVal.str "a", GoVal.int 7].length, w1) ∧
      demoChan.popN (0 + 1) [GoVal.str "a", GoVal.int 7].length w1 =
        some (([GoVal.str "a", GoVal.int 7].flatMap GoVal.wire).map (fun s => (s, none)),
          w2)) ∧
    (∃ w1 w2,
      demoChan.Push (GoVal.int 7) (0 + 1) (demoWorld []) = some ((1, none), w1) ∧
      demoChan.Pop (0 + 1) w1 = some (("7", none), w2)) ∧
    (∀ s : String, ∃ w1 w2,
      demoChan.Push (GoVal.str s) (0 + 1) (demoWorld []) = some ((1, none), w1) ∧
      demoChan.Pop (0 + 1) w1 = some ((s, none), w2)) :=
  have T := pop_returns_pushed_values_in_order demoChan 0 (demoWorld [])
    [GoVal.str "a", GoVal.int 7] demo_values_single
    (by decide) (by decide) (by decide) (by decide) (by decide)
    (demoWorld_reliable [] _) (demoWorld_reliable [] _)
  ⟨T.1, T.2.1 (GoVal.int 7) "7" (by decide), T.2.2⟩

/-- C3, amended, on the handle without a maximum length and a channel that
holds "b": a slice of two strings, the string "a", and nil. -/
theorem push_with_room_inserts_at_head_witness :
    (∃ w1, openChan.Push (GoVal.strs ["x", "y"]) (0 + 1) (demoWorld ["b"]) =
        some (((((["b"] : List String).length : Int) +
          ((GoVal.strs ["x", "y"]).wire.length : Int)), none), w1) ∧
      w1.kv openChan.ChannelName = listVal ((GoVal.strs ["x", "y"]).wire.reverse ++ ["b"]) ∧
      (∀ k, k ≠ openChan.ChannelName → w1.kv k = (demoWorld ["b"]).kv k)) ∧
    (∃ w1, openChan.Push (GoVal.str "a") (0 + 1) (demoWorld ["b"]) =
        some (((((["b"] : List String).length : Int) + 1), none), w1) ∧
      w1.kv openChan.ChannelName = listVal ("a" :: ["b"]) ∧
      (∀ k, k ≠ openChan.ChannelName → w1.kv k = (demoWorld ["b"]).kv k)) ∧
    (∃ w1, openChan.Push GoVal.nil (0 + 1) (demoWorld ["b"]) =
        some ((0, some Err.wrongArgs), w1) ∧ w1.kv = (demoWorld ["b"]).kv) ∧
    (∀ (fuel1 : Nat) (w0 : World) (v0 : GoVal) (r : Int × Option Err)
      (w1 : World), openChan.Push v0 fuel1 w0 = some (r, w1) → r.2 ≠ some Err.channelFull) :=
  ⟨(push_with_room_inserts_at_head openChan 0 (demoWorld ["b"]) ["b"] (GoVal.strs ["x", "y"])
      (by decide) (Or.inl (by decide)) (by decide) (by decide)
      (demoWorld_reliable _ _) (demoWorld_reliable _ _)).1 (by decide),
    (push_with_room_inserts_at_head openChan 0 (demoWorld ["b"]) ["b"] (GoVal.str "a")
      (by decide) (Or.inl (by decide)) (by decide) (by decide)
      (demoWorld_reliable _ _) (demoWorld_reliable _ _)).2.1 "a" (by decide),
    (push_with_room_inserts_at_head openChan 0 (demoWorld ["b"]) ["b"] GoVal.nil
      (by decide) (Or.inl (by decide)) (by decide) (by decide)
      (demoWorld_reliable _ _) (demoWorld_reliable _ _)).2.2.1 (by decide),
    (push_with_room_inserts_at_head openChan 0 (demoWorld ["b"]) ["b"] GoVal.nil
      (by decide) (Or.inl (by decide)) (by decide) (by decide)
      (demoWorld_reliable _ _) (demoWorld_reliable _ _)).2.2.2 (by decide)⟩

/-- C4 on the handle of `TestXxx` and a channel that holds "a" and "b". -/
theorem del_clears_the_channel_witness :
    (∃ w1 w2, demoChan.Del (0 + 1) (demoWorld ["a", "b"]) =
        some (((if (["a", "b"] : List String) = [] then 0 else 1), none), w1) ∧
      w1.kv demoChan.ChannelName = none ∧
      (demoChan.Len w1).1 = (0, none) ∧
      demoChan.Pop (0 + 1) w1 = some (("", some Err.redisNil), w2)) ∧
    (∀ (fuel1 : Nat) (w0 : World) (r : Int × Option Err) (w1 : World),
      demoChan.Del fuel1 w0 = some (r, w1) → r.1 = 0 ∨ r.1 = 1) :=
  del_clears_the_channel demoChan 0 (demoWorld ["a", "b"]) ["a", "b"]
    (by decide) (by decide) (by decide)
    (demoWorld_reliable _ _) (demoWorld_reliable _ _)

/-- C5 on the handle of `TestXxx` and the empty default channel. -/
theorem pop_on_empty_channel_witness :
    ∃ w1, demoChan.Pop (0 + 1) (demoWorld []) = some (("", some Err.redisNil), w1) ∧
      w1.log = (demoWorld []).log ++ [Event.setnx demoChan.ChannelLockerName,
        Event.rpop demoChan.ChannelName, Event.sleep 100,
        Event.del demoChan.ChannelLockerName] ∧
      w1.kv = (demoWorld []).kv ∧ w1.kv demoChan.ChannelName = none :=
  pop_on_empty_channel demoChan 0 (demoWorld []) (by decide) (by decide) (by decide)
    (demoWorld_reliable _ _) (demoWorld_reliable _ _)

/-- C6, amended, on the handle of `TestXxx` when the first call on the list key
gets no reply and the calls on the lock key go through. -/
theorem lock_released_on_every_return_witness :
    (∃ r wa wb evs, demoChan.lock (0 + 1) (lossyWorld ["a"]) = some wa ∧
      wa.kv demoChan.ChannelLockerName = some (RVal.str "1") ∧
      demoChan.Push (GoVal.str "x") (0 + 1) (lossyWorld ["a"]) = some (r, demoChan.unlock wb) ∧
      wb.kv demoChan.ChannelLockerName = some (RVal.str "1") ∧
      (demoChan.unlock wb).kv demoChan.ChannelLockerName = none ∧
      (demoChan.unlock wb).log = (lossyWorld ["a"]).log ++
        [Event.setnx demoChan.ChannelLockerName] ++ evs ++
        [Event.del demoChan.ChannelLockerName]) ∧
    (∃ r wa wb evs, demoChan.lock (0 + 1) (lossyWorld ["a"]) = some wa ∧
      wa.kv demoChan.ChannelLockerName = some (RVal.str "1") ∧
      demoChan.Pop (0 + 1) (lossyWorld ["a"]) = some (r, demoChan.unlock wb) ∧
      wb.kv demoChan.ChannelLockerName = some (RVal.str "1") ∧
      (demoChan.unlock wb).kv demoChan.ChannelLockerName = none ∧
      (demoChan.unlock wb).log = (lossyWorld ["a"]).log ++
        [Event.setnx demoChan.ChannelLockerName] ++ evs ++
        [Event.del demoChan.ChannelLockerName]) ∧
    (∃ r wa wb evs, demoChan.lock (0 + 1) (lossyWorld ["a"]) = some wa ∧
      wa.kv demoChan.ChannelLockerName = some (RVal.str "1") ∧
      demoChan.Del (0 + 1) (lossyWorld ["a"]) = some (r, demoChan.unlock wb) ∧
      wb.kv demoChan.ChannelLockerName = some (RVal.str "1") ∧
      (demoChan.unlock wb).kv demoChan.ChannelLockerName = none ∧
      (demoChan.unlock wb).log = (lossyWorld ["a"]).log ++
        [Event.setnx demoChan.ChannelLockerName] ++ evs ++
        [Event.del demoChan.ChannelLockerName]) :=
  lock_released_on_every_return demoChan 0 (lossyWorld ["a"]) (GoVal.str "x")
    (by decide) (by decide) (by decide) (by decide)

/-- C7, amended, on the handle of `TestXxx`, from the empty default channel. -/
theorem length_never_exceeds_MaxLen_witness :
    (∀ (fuel : Nat) (ops : List Op) (w1 : World),
      (∀ v, Op.push v ∈ ops → v.wire.length ≤ 1) →
      demoChan.run fuel ops (demoWorld []) = some w1 →
      (chanLen w1.kv demoChan.ChannelName : Int) ≤ demoChan.MaxLen) ∧
    (∀ (fuel : Nat) (ops : List Op) (w1 : World) (v : GoVal) (r : Int × Option Err)
      (w2 : World), (∀ u, Op.push u ∈ ops → u.wire.length ≤ 1) → v.wire.length ≤ 1 →
      demoChan.run fuel ops (demoWorld []) = some w1 →
      demoChan.Push v fuel w1 = some (r, w2) →
      (chanLen w2.kv demoChan.ChannelName : Int) ≤ demoChan.MaxLen) ∧
    (∀ (fuel : Nat) (ops : List Op), ∃ w1, demoChan.run (fuel + 1) ops (demoWorld []) = some w1) :=
  have T := length_never_exceeds_MaxLen demoChan (demoWorld []) (by decide) (by decide)
    (by decide) (reliable_unrepeated _ _ (demoWorld_reliable _ _))
  ⟨T.1, T.2.1, T.2.2 (by decide) (demoWorld_reliable _ _) (demoWorld_reliable _ _)⟩

/-- C8 on the handle of `TestXxx`: from a free lock key, and from a held one. -/
theorem lock_protocol_witness :
    (∀ fuel : Nat, ∃ w1, demoChan.lock (fuel + 1) (demoWorld []) = some w1 ∧
        w1.log = (demoWorld []).log ++ [Event.setnx demoChan.ChannelLockerName] ∧
        w1.kv demoChan.ChannelLockerName = some (RVal.str "1")) ∧
    (∀ fuel : Nat, ∃ w1 w2, demoChan.lock (fuel + 1) (demoWorld []) = some w1 ∧
        (demoChan.unlock w1).kv demoChan.ChannelLockerName = none ∧
        demoChan.lock (fuel + 1) (demoChan.unlock w1) = some w2 ∧
        (demoChan.unlock w2).kv demoChan.ChannelLockerName = none) ∧
    (∀ fuel : Nat, demoChan.lock fuel heldWorld = none) :=
  ⟨(lock_protocol demoChan (demoWorld [])).2.1 (by decide) (by decide),
    (lock_protocol demoChan (demoWorld [])).2.2.1 (by decide) (demoWorld_reliable _ _),
    (lock_protocol demoChan heldWorld).2.2.2 (by decide)⟩

/-- C10 on the handle of `TestXxx`: a stored empty string at the tail, a removal call without reply, and the empty channel. -/
theorem pop_pauses_iff_value_empty_witness :
    (∃ w1, demoChan.Pop (0 + 1) (demoWorld ["a", ""]) = some (("", none), w1) ∧
        w1.kv demoChan.ChannelName = listVal ["a"] ∧
        w1.log = (demoWorld ["a", ""]).log ++ [Event.setnx demoChan.ChannelLockerName,
          Event.rpop demoChan.ChannelName, Event.sleep 100,
          Event.del demoChan.ChannelLockerName]) ∧
    (∃ w1, demoChan.Pop (0 + 1) (lossyWorld ["a"]) = some (("", some Err.network), w1) ∧
        w1.log = (lossyWorld ["a"]).log ++ [Event.setnx demoChan.ChannelLockerName,
          Event.rpop demoChan.ChannelName, Event.sleep 100,
          Event.del demoChan.ChannelLockerName]) ∧
    (∃ w1, demoChan.Pop (0 + 1) (demoWorld []) = some (("", some Err.redisNil), w1) ∧
        w1.log = (demoWorld []).log ++ [Event.setnx demoChan.ChannelLockerName,
          Event.rpop demoChan.ChannelName, Event.sleep 100,
          Event.del demoChan.ChannelLockerName]) :=
  ⟨(pop_pauses_iff_value_empty demoChan 0 (demoWorld ["a", ""]) (by decide) (by decide)
      (demoWorld_reliable _ _)).2.1 ["a"] (demoWorld_reliable _ _) (by decide),
    (pop_pauses_iff_value_empty demoChan 0 (lossyWorld ["a"]) (by decide) (by decide)
      (lossyWorld_reliable _)).2.2.1 (by decide),
    (pop_pauses_iff_value_empty demoChan 0 (demoWorld []) (by decide) (by decide)
      (demoWorld_reliable _ _)).2.2.2 (demoWorld_reliable _ _) (by decide)⟩

end Rchan
